import Mathlib

/-!
# Detective Quest: room map, clue tree, suspect table and accusation scoring

A shallow embedding of `algoritmos_avancados.c`.

* The map of rooms is a binary tree; the pointer `atual` of `explorarSalas` is the list of
  steps from the root to the current room, and the lines read by `fgets` are given as a
  list (`none` for a failed read).

* A C string is the list of its bytes before the terminating NUL, so every
  byte is in `1..255` (`CChar`); a possibly-NULL `const char *` is an
  `Option CString`.
* `malloc`/`strdup` are taken to succeed (on failure the program exits).
* `inserirNaHash` takes its two strings by value: they are held outside the block that the
  update path frees. `inserirNaHashPtr` takes `suspeito` as a pointer that may point into the
  table, and is undefined (`none`) where the code reads a block it has just freed.
* The `int` tally of `contarPistasDoSuspeitoRec` is an unbounded `Int`
  (a tree would need `2^31` matching nodes to overflow it).
-/

namespace DetectiveQuest

/-! ## Constants -/

abbrev MAX_NOME : Nat := 50
abbrev MAX_PISTA : Nat := 100
abbrev HASH_SIZE : Nat := 101

/-- The number of values of an `unsigned long` (64 bits). -/
abbrev ULONG_MOD : Nat := 2 ^ 64

/-! ## C strings -/

/-- A byte of a C string: an `unsigned char` value other than the NUL terminator. -/
abbrev CChar : Type := { n : Nat // 0 < n ∧ n < 256 }

/-- The bytes of a C string before its terminating NUL. -/
abbrev CString : Type := List CChar

/-- The value read by `(unsigned char)*s`: the first byte, or the terminating NUL. -/
def deref : CString → Nat
  | [] => 0
  | c :: _ => c.val

/-- Converts the characters of a literal with code `1..255` to a C string. -/
def texto (s : String) : CString :=
  s.toList.filterMap (fun ch =>
    if h : 0 < ch.toNat ∧ ch.toNat < 256 then some ⟨ch.toNat, h⟩ else none)

/-- The libc function `strlen`. -/
def strlen (s : CString) : Nat := s.length

/-- The libc function `strcmp`: the difference of the first pair of bytes (read as
`unsigned char`, the terminator included) at which the two strings differ. -/
def strcmp : CString → CString → Int
  | [], [] => 0
  | a, [] => (deref a : Int)
  | [], b => - (deref b : Int)
  | a :: as, b :: bs => if a.val = b.val then strcmp as bs else (a.val : Int) - (b.val : Int)

/-- The effect of `strncpy(dst, src, n); dst[n] = 0` on the string held by `dst`. -/
def strncpy (src : CString) (n : Nat) : CString := src.take n

/-! ## The clue tree (BST) -/

/-- The type `NoPista *`: `nil` is the NULL pointer. -/
inductive NoPista where
  | nil : NoPista
  | node (pista : CString) (esq dir : NoPista) : NoPista
  deriving DecidableEq

/-- Allocates a leaf whose key is the text cut to `MAX_PISTA - 1` bytes. -/
def criarNoPista (pista : CString) : NoPista :=
  .node (strncpy pista (MAX_PISTA - 1)) .nil .nil

/-- Inserts `pista` into the tree `raiz`. -/
def inserirPista (raiz : NoPista) (pista : Option CString) : NoPista :=
  match pista with
  | none => raiz
  | some p =>
    if deref p = 0 then raiz
    else
      match raiz with
      | .nil => criarNoPista p
      | .node k esq dir =>
        let cmp := strcmp p k
        if cmp < 0 then .node k (inserirPista esq (some p)) dir
        else if cmp > 0 then .node k esq (inserirPista dir (some p))
        else .node k esq dir

/-- Wrapper around `inserirPista`. -/
def adicionarPista (raiz : NoPista) (pista : Option CString) : NoPista :=
  inserirPista raiz pista

/-- The lines printed by `exibirPistas`, in order: the in-order traversal. -/
def exibirPistas : NoPista → List CString
  | .nil => []
  | .node k esq dir => exibirPistas esq ++ k :: exibirPistas dir

/-- Unsigned comparison of two bytes. -/
def byteLt (a b : CChar) : Prop := a.val < b.val

instance byteLt_decidable : DecidableRel byteLt := fun a b => Nat.decLt a.val b.val

instance byteLt_strictTotal : IsStrictTotalOrder CChar byteLt where
  irrefl a := Nat.lt_irrefl a.val
  trans _ _ _ h₁ h₂ := Nat.lt_trans h₁ h₂
  trichotomous a b := by
    rcases Nat.lt_trichotomy a.val b.val with h | h | h
    · exact Or.inl h
    · exact Or.inr (Or.inl (Subtype.ext h))
    · exact Or.inr (Or.inr h)

/-- Byte-wise lexicographic order on strings: a proper prefix comes first. -/
abbrev lexLt : CString → CString → Prop := List.Lex byteLt

/-- The BST invariant: every key is above all keys on its left and below all keys on its right. -/
def ehBST : NoPista → Prop
  | .nil => True
  | .node k esq dir =>
    ehBST esq ∧ ehBST dir ∧ (∀ x ∈ exibirPistas esq, lexLt x k) ∧ (∀ x ∈ exibirPistas dir, lexLt k x)

/-- The tree after inserting the given texts one after another, starting from `raiz`. -/
def inserirTodas (raiz : NoPista) (textos : List CString) : NoPista :=
  textos.foldl (fun r p => inserirPista r (some p)) raiz

/-- A text of `n` letters `a`. -/
def letrasA (n : Nat) : CString := List.replicate n ⟨97, by decide⟩

/-! ## Character classes of `<ctype.h>` in the "C" locale -/

/-- The libc function `isspace`: space, `\t`, `\n`, `\v`, `\f`, `\r`. -/
def isspace (c : Nat) : Bool := decide (c = 32 ∨ (9 ≤ c ∧ c ≤ 13))

/-- The libc function `tolower`: `A..Z` go to `a..z`, every other value is kept. -/
def tolower (c : Nat) : Nat := if 65 ≤ c ∧ c ≤ 90 then c + 32 else c

/-! ## The suspect table (chained hash table) -/

/-- The loop of `hash_djb2`, started with the accumulator `hash`. -/
def hash_djb2_loop (hash : Nat) : CString → Nat
  | [] => hash
  | c :: resto =>
    hash_djb2_loop ((((hash <<< 5) % ULONG_MOD + hash) % ULONG_MOD + c.val) % ULONG_MOD) resto

/-- The function `hash_djb2` on `unsigned long`. -/
def hash_djb2 (str : CString) : Nat := hash_djb2_loop 5381 str

/-- One link of a bucket chain; the `prox` pointer is the tail of the list. -/
structure HashEntry where
  pista : CString
  suspeito : CString
  deriving DecidableEq

/-- The table: `HASH_SIZE` bucket chains, a NULL chain being `[]`. -/
structure HashTable where
  tabela : Fin HASH_SIZE → List HashEntry

/-- The bucket index `hash_djb2(pista) % HASH_SIZE`. -/
def indice (pista : CString) : Fin HASH_SIZE :=
  ⟨hash_djb2 pista % HASH_SIZE, Nat.mod_lt _ (by decide)⟩

/-- Sets every bucket to NULL, one index after the other. -/
def inicializarHash (h : HashTable) : HashTable :=
  (List.finRange HASH_SIZE).foldl (fun t i => ⟨Function.update t.tabela i []⟩) h

/-- The update loop of `inserirNaHash` along one chain: the chain with the suspect of the
first entry for `pista` replaced, or `none` when the loop ends without finding one. -/
def atualizarCadeia (pista suspeito : CString) : List HashEntry → Option (List HashEntry)
  | [] => none
  | cur :: prox =>
    if strcmp cur.pista pista = 0 then some ({ cur with suspeito := suspeito } :: prox)
    else (atualizarCadeia pista suspeito prox).map (fun r => cur :: r)

/-- Inserts or updates the pair `(pista, suspeito)`, for arguments given by value: strings
held outside the suspect block that the update path frees. The call with a `suspeito` that
points into the table is `inserirNaHashPtr`. -/
def inserirNaHash (h : HashTable) (pista suspeito : Option CString) : HashTable :=
  match pista, suspeito with
  | some p, some s =>
    let hval := indice p
    match atualizarCadeia p s (h.tabela hval) with
    | some cadeia => ⟨Function.update h.tabela hval cadeia⟩
    | none => ⟨Function.update h.tabela hval ({ pista := p, suspeito := s } :: h.tabela hval)⟩
  | _, _ => h

/-- The scan of `encontrarSuspeito` along one chain. -/
def buscarCadeia (pista : CString) : List HashEntry → Option CString
  | [] => none
  | cur :: prox => if strcmp cur.pista pista = 0 then some cur.suspeito else buscarCadeia pista prox

/-- The suspect stored for `pista`, `none` being the NULL result. -/
def encontrarSuspeito (h : HashTable) (pista : CString) : Option CString :=
  buscarCadeia pista (h.tabela (indice pista))

/-- A `const char *suspeito` argument by where it points: NULL, a string outside the table,
or the `suspeito` block of the entry at position `n` of the chain of bucket `i` (what
`encontrarSuspeito` returns on a match). -/
inductive Ponteiro where
  | nulo : Ponteiro
  | externo (s : CString) : Ponteiro
  | suspeitoDe (i : Fin HASH_SIZE) (n : Nat) : Ponteiro
  deriving DecidableEq

/-- The string a pointer points to while the table is `h`: `none` for NULL and for a pointer
to an entry the table does not have. -/
def lerPonteiro (h : HashTable) : Ponteiro → Option CString
  | .nulo => none
  | .externo s => some s
  | .suspeitoDe i n => ((h.tabela i)[n]?).map HashEntry.suspeito

/-- The position in a chain of the entry at which the scan of `encontrarSuspeito` stops. -/
def posicaoCadeia (pista : CString) : List HashEntry → Option Nat
  | [] => none
  | cur :: prox =>
    if strcmp cur.pista pista = 0 then some 0 else (posicaoCadeia pista prox).map (fun n => n + 1)

/-- The pointer `encontrarSuspeito` returns: `cur->suspeito` of the first match, or NULL. -/
def encontrarSuspeitoPtr (h : HashTable) (pista : CString) : Ponteiro :=
  match posicaoCadeia pista (h.tabela (indice pista)) with
  | some n => .suspeitoDe (indice pista) n
  | none => .nulo

/-- How the update loop of `inserirNaHash` ends: without a match, in undefined behaviour, or
with the chain updated. -/
inductive Laco where
  | semEntrada : Laco
  | indefinido : Laco
  | atualizada (cadeia : List HashEntry) : Laco
  deriving DecidableEq

/-- The update loop of `inserirNaHash` with `suspeito` as a pointer; `n` is the position of
`cur` in the chain of bucket `hval`. On a match the code runs `free(cur->suspeito)` and then
`strdup(suspeito)`: when `suspeito` is that very block, `strdup` reads freed memory. -/
def atualizarCadeiaPtr (h : HashTable) (hval : Fin HASH_SIZE) (pista : CString)
    (suspeito : Ponteiro) : Nat → List HashEntry → Laco
  | _, [] => .semEntrada
  | n, cur :: prox =>
    if strcmp cur.pista pista = 0 then
      if suspeito = .suspeitoDe hval n then .indefinido
      else
        match lerPonteiro h suspeito with
        | some v => .atualizada ({ cur with suspeito := v } :: prox)
        | none => .indefinido
    else
      match atualizarCadeiaPtr h hval pista suspeito (n + 1) prox with
      | .atualizada r => .atualizada (cur :: r)
      | .semEntrada => .semEntrada
      | .indefinido => .indefinido

/-- The function `inserirNaHash` with `suspeito` as a pointer: the table after the call, or
`none` when the call has undefined behaviour (it reads a freed or a dangling block). -/
def inserirNaHashPtr (h : HashTable) (pista : Option CString) (suspeito : Ponteiro) :
    Option HashTable :=
  match pista, suspeito with
  | none, _ => some h
  | some _, .nulo => some h
  | some p, s =>
    let hval := indice p
    match atualizarCadeiaPtr h hval p s 0 (h.tabela hval) with
    | .atualizada cadeia => some ⟨Function.update h.tabela hval cadeia⟩
    | .indefinido => none
    | .semEntrada =>
      match lerPonteiro h s with
      | some v =>
        some ⟨Function.update h.tabela hval ({ pista := p, suspeito := v } :: h.tabela hval)⟩
      | none => none

/-- The table with every chain empty. -/
def tabelaVazia : HashTable := ⟨fun _ => []⟩

/-- One call of `inserirNaHash`: its two arguments. -/
abbrev Insercao : Type := Option CString × Option CString

/-- The table after the given calls of `inserirNaHash`, in order, starting from `h`. -/
def inserirTodasNaHash (h : HashTable) (ops : List Insercao) : HashTable :=
  ops.foldl (fun t op => inserirNaHash t op.1 op.2) h

/-- The table after `inicializarHash` on the storage `h0` and then the given calls of
`inserirNaHash`, in order: the tables the program can reach. -/
def aposInsercoes (h0 : HashTable) (ops : List Insercao) : HashTable :=
  inserirTodasNaHash (inicializarHash h0) ops

/-- The invariant of the table: every entry sits in the bucket of its clue and no chain
holds a clue twice. -/
def bemFormada (h : HashTable) : Prop :=
  ∀ i : Fin HASH_SIZE, (∀ e ∈ h.tabela i, indice e.pista = i) ∧
    ((h.tabela i).map HashEntry.pista).Nodup

/-- The table has an entry for the clue, in some chain. -/
def temChave (h : HashTable) (pista : CString) : Prop :=
  ∃ i : Fin HASH_SIZE, ∃ e ∈ h.tabela i, e.pista = pista

/-- The total number of entries in the table. -/
def numEntradas (h : HashTable) : Nat :=
  ∑ i : Fin HASH_SIZE, (h.tabela i).length

/-- The number of entries, over all chains, whose clue is `pista`. -/
def numEntradasDe (h : HashTable) (pista : CString) : Nat :=
  ∑ i : Fin HASH_SIZE, (h.tabela i).countP (fun e => e.pista = pista)

/-! ## Trimming and case-insensitive comparison -/

/-- The loop `while (isspace(*start)) start++`. -/
def saltarEspacos : CString → CString
  | [] => []
  | c :: resto => if isspace c.val then saltarEspacos resto else c :: resto

/-- The loop `while (end > start && isspace(*end)) end--`, on the offset `end - start`. -/
def recuar (start : CString) : Nat → Nat
  | 0 => 0
  | e + 1 => if isspace (deref (start.drop (e + 1))) then recuar start e else e + 1

/-- The function `str_trim` on a non-NULL buffer: the string the buffer holds afterwards. -/
def str_trim (s : CString) : CString :=
  let start := saltarEspacos s
  let fim0 : Int := (strlen start : Int) - 1
  let fim : Int := if 0 < fim0 then (recuar start fim0.toNat : Int) else fim0
  let len : Nat := (fim + 1).toNat
  start.take len

/-- The function `str_iequals`; `true` is a non-zero result. -/
def str_iequals : CString → CString → Bool
  | a :: as, b :: bs =>
    if tolower a.val ≠ tolower b.val then false else str_iequals as bs
  | a, b => decide (deref a = deref b)

/-! ## Accusation -/

/-- Counts the clues of the tree that the table links to `suspeito`. -/
def contarPistasDoSuspeitoRec (r : NoPista) (h : HashTable) (suspeito : CString) : Int :=
  match r with
  | .nil => 0
  | .node pista esq dir =>
    let c : Int := 0
    let c := c + contarPistasDoSuspeitoRec esq h suspeito
    let c :=
      match encontrarSuspeito h pista with
      | some s => if str_iequals s suspeito then c + 1 else c
      | none => c
    c + contarPistasDoSuspeitoRec dir h suspeito

/-- Which of the three `DESFECHO` lines is printed. -/
inductive Desfecho where
  | culpado
  | insuficiente
  | nenhuma
  deriving DecidableEq, Repr

/-- What `verificarSuspeitoFinal` prints: either `Nome inválido.` alone, or the accused
name, the number of related clues and one `DESFECHO` line. -/
inductive Saida where
  | nomeInvalido : Saida
  | veredito (nome : CString) (total : Int) (desfecho : Desfecho) : Saida
  deriving DecidableEq

/-- Judges the accused from the collected clues. -/
def verificarSuspeitoFinal (pistas : NoPista) (h : HashTable) (acusado : Option CString) : Saida :=
  match acusado with
  | none => .nomeInvalido
  | some a =>
    if deref a = 0 then .nomeInvalido
    else
      let nome := str_trim (strncpy a (100 - 1))
      let total := contarPistasDoSuspeitoRec pistas h nome
      if total ≥ 2 then .veredito nome total .culpado
      else if total = 1 then .veredito nome total .insuficiente
      else .veredito nome total .nenhuma

/-- The accusation phase of `main`: `linha` is what `fgets` left in the buffer (`none` when
it fails, and then nothing is printed); a final newline is cut, the name trimmed and judged. -/
def faseAcusacao (pistas : NoPista) (h : HashTable) (linha : Option CString) : Option Saida :=
  match linha with
  | none => none
  | some acusado =>
    let L := strlen acusado
    let acusado := if 0 < L ∧ deref (acusado.drop (L - 1)) = 10 then acusado.take (L - 1) else acusado
    some (verificarSuspeitoFinal pistas h (some (str_trim acusado)))

/-- The count printed by `verificarSuspeitoFinal`, when it prints one. -/
def Saida.total? : Saida → Option Int
  | .nomeInvalido => none
  | .veredito _ total _ => some total

/-- The `DESFECHO` line printed by `verificarSuspeitoFinal`, when it prints one. -/
def Saida.desfecho? : Saida → Option Desfecho
  | .nomeInvalido => none
  | .veredito _ _ d => some d

/-- The bytes of a string after lower-casing each one. -/
def minusculas (s : CString) : List Nat := s.map (fun c => tolower c.val)

/-- Two collected clues, `shoeprint` and `torn page`. -/
def pistasExemplo : NoPista := inserirTodas .nil [texto "shoeprint", texto "torn page"]

/-- A table linking `shoeprint` and `torn page` to `Carlos`. -/
def tabelaExemplo : HashTable :=
  inserirTodasNaHash tabelaVazia
    [(some (texto "shoeprint"), some (texto "Carlos")),
     (some (texto "torn page"), some (texto "Carlos"))]

/-- Whether the clue is in the table with a suspect equal to `suspeito` up to letter case. -/
def apontaPara (h : HashTable) (suspeito : CString) (pista : CString) : Bool :=
  match encontrarSuspeito h pista with
  | some s => str_iequals s suspeito
  | none => false

/-- The number of nodes of a tree. -/
def numNos : NoPista → Nat
  | .nil => 0
  | .node _ esq dir => numNos esq + 1 + numNos dir

/-- The reference djb2 recurrence over the bytes `b_0, b_1, ...`: `h_0 = 5381` and
`h_{i+1} = (h_i * 33 + b_i) mod 2^64`; the value is `h_i`. -/
def djb2_ref (b : List Nat) : Nat → Nat
  | 0 => 5381
  | i + 1 => (djb2_ref b i * 33 + b.getD i 0) % 2 ^ 64

/-- A step down a binary tree: to the left or to the right child. -/
inductive Lado where
  | esquerda
  | direita
  deriving DecidableEq, Repr

/-- The subtree of a clue tree reached from its root by the given steps (NULL when the
steps leave the tree). -/
def subarvore : NoPista → List Lado → NoPista
  | t, [] => t
  | .nil, _ :: _ => .nil
  | .node _ esq _, .esquerda :: c => subarvore esq c
  | .node _ _ dir, .direita :: c => subarvore dir c

/-! ## The map of rooms and its exploration -/

/-- The type `Sala *`: `nil` is the NULL pointer, and a room owns its two children, so a map
is a binary tree. -/
inductive Sala where
  | nil : Sala
  | node (nome pista : CString) (esquerda direita : Sala) : Sala
  deriving DecidableEq

/-- Allocates a room without children: the name cut to `MAX_NOME - 1` bytes, the clue cut to
`MAX_PISTA - 1` bytes, or empty when the argument is NULL or empty. -/
def criarSala (nome : CString) (pista : Option CString) : Sala :=
  .node (strncpy nome (MAX_NOME - 1))
    (match pista with
      | some p => if deref p ≠ 0 then strncpy p (MAX_PISTA - 1) else []
      | none => [])
    .nil .nil

/-- The assignments `s->esquerda = e` and `s->direita = d` on a room `s`. -/
def ligar (s e d : Sala) : Sala :=
  match s with
  | .nil => .nil
  | .node nome pista _ _ => .node nome pista e d

/-- The maps built with `criarSala` and linked into a tree. -/
inductive Construido : Sala → Prop
  | nil : Construido .nil
  | sala (nome : CString) (pista : Option CString) (e d : Sala) :
      Construido e → Construido d → Construido (ligar (criarSala nome pista) e d)

/-- The field `pista` of a room, as a string. -/
def pistaDe : Sala → CString
  | .nil => []
  | .node _ pista _ _ => pista

/-- The field `esquerda` of a room. -/
def esquerdaDe : Sala → Sala
  | .nil => .nil
  | .node _ _ e _ => e

/-- The field `direita` of a room. -/
def direitaDe : Sala → Sala
  | .nil => .nil
  | .node _ _ _ d => d

/-- The room reached from the root of a map by the given steps (NULL when they leave the
map): a pointer into the map is the list of steps that leads to it. -/
def salaEm : Sala → List Lado → Sala
  | s, [] => s
  | .nil, _ :: _ => .nil
  | .node _ _ e _, .esquerda :: c => salaEm e c
  | .node _ _ _ d, .direita :: c => salaEm d c

/-- The map after `pista[0] = 0` in the room the steps lead to. -/
def marcarColetada : Sala → List Lado → Sala
  | .nil, _ => .nil
  | .node nome _ e d, [] => .node nome [] e d
  | .node nome pista e d, .esquerda :: c => .node nome pista (marcarColetada e c) d
  | .node nome pista e d, .direita :: c => .node nome pista e (marcarColetada d c)

/-- The variables of `explorarSalas` at the head of its loop: the map, the pointer `atual`
as steps from the root, and `*raizPistas`. -/
structure Estado where
  mapa : Sala
  atual : List Lado
  raizPistas : NoPista
  deriving DecidableEq

/-- The collection phase of the loop body: a non-empty clue of the current room is added to
the clue tree and the room is marked as collected. -/
def coletar (e : Estado) : Estado :=
  let pista := pistaDe (salaEm e.mapa e.atual)
  if deref pista ≠ 0 then
    { e with raizPistas := adicionarPista e.raizPistas (some pista),
             mapa := marcarColetada e.mapa e.atual }
  else e

/-- What the command phase of the loop body does: the next state, whether the loop is left,
and whether `Opção inválida.` is printed. -/
structure Resultado where
  estado : Estado
  saiu : Bool
  opcaoInvalida : Bool
  deriving DecidableEq

/-- The command phase of the loop body; `buffer` is what `fgets` read, `none` when it fails. -/
def comando (e : Estado) (buffer : Option CString) : Resultado :=
  match buffer with
  | none => { estado := e, saiu := false, opcaoInvalida := false }
  | some b =>
    if deref b = 10 then { estado := e, saiu := false, opcaoInvalida := false }
    else
      let opcao := tolower (deref b)
      if opcao = 101 ∧ esquerdaDe (salaEm e.mapa e.atual) ≠ .nil then
        { estado := { e with atual := e.atual ++ [.esquerda] }, saiu := false,
          opcaoInvalida := false }
      else if opcao = 100 ∧ direitaDe (salaEm e.mapa e.atual) ≠ .nil then
        { estado := { e with atual := e.atual ++ [.direita] }, saiu := false,
          opcaoInvalida := false }
      else if opcao = 115 then { estado := e, saiu := true, opcaoInvalida := false }
      else { estado := e, saiu := false, opcaoInvalida := true }

/-- The loop of `explorarSalas` over the given reads: the state at the head of the loop when
the reads are used up, or the state in which the loop was left, and whether it was left. -/
def aposEntradas (e : Estado) : List (Option CString) → Estado × Bool
  | [] => (e, false)
  | b :: resto =>
    let r := comando (coletar e) b
    if r.saiu then (r.estado, true) else aposEntradas r.estado resto

/-- The function `explorarSalas` on the given reads: the map and the clue tree when it
returns, `none` when the reads end before an exit command. -/
def explorarSalas (atual : Sala) (raizPistas : NoPista) (entradas : List (Option CString)) :
    Option (Sala × NoPista) :=
  match atual with
  | .nil => some (.nil, raizPistas)
  | .node nome pista e d =>
    let fim := aposEntradas { mapa := .node nome pista e d, atual := [], raizPistas := raizPistas }
      entradas
    if fim.2 then some (fim.1.mapa, fim.1.raizPistas) else none

/-- The state in which the engine waits for its next command after the given reads (the
current room has been collected), or in which it has exited. -/
def noPrompt (e : Estado) (entradas : List (Option CString)) : Estado :=
  if (aposEntradas e entradas).2 then (aposEntradas e entradas).1
  else coletar (aposEntradas e entradas).1

/-- The map with the clue of every room on the way from the root to the room the steps lead
to emptied, that room included. -/
def limparCaminho : Sala → List Lado → Sala
  | .nil, _ => .nil
  | .node nome _ e d, [] => .node nome [] e d
  | .node nome _ e d, .esquerda :: c => .node nome [] (limparCaminho e c) d
  | .node nome _ e d, .direita :: c => .node nome [] e (limparCaminho d c)

/-- The steps taken by the left and right commands that find a child in the map, among the
reads up to the first exit command, after the steps already taken. -/
def movimentos (mapa : Sala) (atual : List Lado) : List (Option CString) → List Lado
  | [] => atual
  | none :: resto => movimentos mapa atual resto
  | some b :: resto =>
    if deref b = 10 then movimentos mapa atual resto
    else if tolower (deref b) = 101 ∧ salaEm mapa (atual ++ [.esquerda]) ≠ .nil then
      movimentos mapa (atual ++ [.esquerda]) resto
    else if tolower (deref b) = 100 ∧ salaEm mapa (atual ++ [.direita]) ≠ .nil then
      movimentos mapa (atual ++ [.direita]) resto
    else if tolower (deref b) = 115 then atual
    else movimentos mapa atual resto

/-- Every clue of the map fits the `char[MAX_PISTA]` field of its room. -/
def pistasCabem : Sala → Prop
  | .nil => True
  | .node _ pista e d => strlen pista ≤ MAX_PISTA - 1 ∧ pistasCabem e ∧ pistasCabem d

/-- The map of the end-to-end scenarios: a hall with the clue `shoeprint`, on its left a
library with the clue `torn page`, on its right a kitchen without clue. -/
def mapaExemplo : Sala :=
  ligar (criarSala (texto "Hall") (some (texto "shoeprint")))
    (criarSala (texto "Library") (some (texto "torn page")))
    (criarSala (texto "Kitchen") (some (texto "")))

/-- The state of an exploration of `mapa0` in which exactly the rooms on the way from the
root to the current room have been collected: the current room exists, the map is `mapa0`
with the clues on that way emptied, and the clue tree is a search tree holding the non-empty
clues those rooms had in `mapa0`. -/
def coletadoAte (mapa0 : Sala) (e : Estado) : Prop :=
  salaEm mapa0 e.atual ≠ .nil ∧
  e.mapa = limparCaminho mapa0 e.atual ∧
  ehBST e.raizPistas ∧
  ∀ x, x ∈ exibirPistas e.raizPistas ↔
    x ≠ [] ∧ ∃ q, q <+: e.atual ∧ pistaDe (salaEm mapa0 q) = x

/-- Whether a byte of a string is whitespace for `isspace`. -/
def ehEspaco (c : CChar) : Bool := isspace c.val

/-- The string without its longest leading run and its longest trailing run of whitespace,
every other byte kept in order. -/
def semEspacosNasPontas (s : CString) : CString :=
  (s.dropWhile ehEspaco).rdropWhile ehEspaco

/-! ## Facts about `strcmp` -/

theorem strcmp_neg_iff : ∀ a b : CString, strcmp a b < 0 ↔ lexLt a b
  | [], [] => by simp [strcmp, lexLt, List.Lex.not_nil_right]
  | a :: as, [] => by
    have := a.property.1
    simp only [strcmp, deref, lexLt, List.Lex.not_nil_right, iff_false]
    omega
  | [], b :: bs => by
    have := b.property.1
    simp only [strcmp, deref, lexLt]
    constructor
    · intro _; exact List.Lex.nil
    · intro _; omega
  | a :: as, b :: bs => by
    by_cases h : a.val = b.val
    · have hab : a = b := Subtype.ext h
      subst hab
      simp only [strcmp, if_true, lexLt, List.Lex.cons_iff]
      exact strcmp_neg_iff as bs
    · simp only [strcmp, if_neg h, lexLt]
      constructor
      · intro hlt
        exact List.Lex.rel (show a.val < b.val by omega)
      · intro hl
        cases hl with
        | cons _ => exact absurd rfl h
        | rel hr => have : a.val < b.val := hr; omega

theorem strcmp_pos_iff : ∀ a b : CString, 0 < strcmp a b ↔ lexLt b a
  | [], [] => by simp [strcmp, lexLt, List.Lex.not_nil_right]
  | a :: as, [] => by
    have := a.property.1
    simp only [strcmp, deref, lexLt]
    constructor
    · intro _; exact List.Lex.nil
    · intro _; omega
  | [], b :: bs => by
    have := b.property.1
    simp only [strcmp, deref, lexLt, List.Lex.not_nil_right, iff_false]
    omega
  | a :: as, b :: bs => by
    by_cases h : a.val = b.val
    · have hab : a = b := Subtype.ext h
      subst hab
      simp only [strcmp, if_true, lexLt, List.Lex.cons_iff]
      exact strcmp_pos_iff as bs
    · simp only [strcmp, if_neg h, lexLt]
      constructor
      · intro hlt
        exact List.Lex.rel (show b.val < a.val by omega)
      · intro hl
        cases hl with
        | cons _ => exact absurd rfl h
        | rel hr => have : b.val < a.val := hr; omega

theorem strcmp_eq_zero_iff : ∀ a b : CString, strcmp a b = 0 ↔ a = b
  | [], [] => by simp [strcmp]
  | a :: as, [] => by
    have := a.property.1
    simp only [strcmp, deref, reduceCtorEq, iff_false]
    omega
  | [], b :: bs => by
    have := b.property.1
    simp only [strcmp, deref, reduceCtorEq, iff_false]
    omega
  | a :: as, b :: bs => by
    by_cases h : a.val = b.val
    · have hab : a = b := Subtype.ext h
      subst hab
      simp only [strcmp, if_true, List.cons.injEq, true_and]
      exact strcmp_eq_zero_iff as bs
    · have hne : a ≠ b := fun e => h (congrArg Subtype.val e)
      simp only [strcmp, if_neg h, List.cons.injEq, hne, false_and, iff_false]
      omega

theorem lexLt_irrefl (a : CString) : ¬ lexLt a a :=
  irrefl_of (List.Lex byteLt) a

theorem lexLt_trans {a b c : CString} (h₁ : lexLt a b) (h₂ : lexLt b c) : lexLt a c :=
  trans_of (List.Lex byteLt) h₁ h₂

theorem lexLt_asymm {a b : CString} (h₁ : lexLt a b) : ¬ lexLt b a :=
  asymm_of (List.Lex byteLt) h₁

/-! ## Facts about the clue tree -/

theorem deref_eq_zero_iff (s : CString) : deref s = 0 ↔ s = [] := by
  cases s with
  | nil => simp [deref]
  | cons c r =>
    have := c.property.1
    simp only [deref, reduceCtorEq, iff_false]
    omega

theorem strncpy_of_le {s : CString} {n : Nat} (h : strlen s ≤ n) : strncpy s n = s :=
  List.take_of_length_le h

theorem inserirPista_nil_some (p : CString) (hp : p ≠ []) :
    inserirPista .nil (some p) = criarNoPista p := by
  have : deref p ≠ 0 := fun h => hp ((deref_eq_zero_iff p).1 h)
  simp [inserirPista, this]

theorem inserirPista_node_some (k : CString) (esq dir : NoPista) (p : CString) (hp : p ≠ []) :
    inserirPista (.node k esq dir) (some p) =
      if strcmp p k < 0 then .node k (inserirPista esq (some p)) dir
      else if strcmp p k > 0 then .node k esq (inserirPista dir (some p))
      else .node k esq dir := by
  have : deref p ≠ 0 := fun h => hp ((deref_eq_zero_iff p).1 h)
  rw [inserirPista]
  simp [this]

theorem inserirPista_vazio (t : NoPista) : inserirPista t (some []) = t := by
  cases t <;> simp [inserirPista, deref]

theorem strcmp_cases (p k : CString) :
    (strcmp p k < 0 ∧ lexLt p k) ∨ (0 < strcmp p k ∧ ¬ strcmp p k < 0 ∧ lexLt k p) ∨
      (¬ strcmp p k < 0 ∧ ¬ 0 < strcmp p k ∧ p = k) := by
  rcases lt_trichotomy (strcmp p k) 0 with h | h | h
  · exact Or.inl ⟨h, (strcmp_neg_iff p k).1 h⟩
  · exact Or.inr (Or.inr ⟨by omega, by omega, (strcmp_eq_zero_iff p k).1 h⟩)
  · exact Or.inr (Or.inl ⟨h, by omega, (strcmp_pos_iff p k).1 h⟩)

/-- The keys after inserting a non-empty text that fits the key buffer. -/
theorem mem_exibirPistas_inserirPista (t : NoPista) (p : CString) (hp : p ≠ [])
    (hlen : strlen p ≤ MAX_PISTA - 1) (x : CString) :
    x ∈ exibirPistas (inserirPista t (some p)) ↔ x ∈ exibirPistas t ∨ x = p := by
  induction t with
  | nil =>
    rw [inserirPista_nil_some p hp]
    have hc : strncpy p (MAX_PISTA - 1) = p := strncpy_of_le hlen
    rw [criarNoPista, hc]
    simp [exibirPistas]
  | node k esq dir ihe ihd =>
    rw [inserirPista_node_some k esq dir p hp]
    rcases strcmp_cases p k with ⟨h, _⟩ | ⟨h, h', _⟩ | ⟨h, h', e⟩
    · simp only [if_pos h, exibirPistas, List.mem_append, List.mem_cons, ihe]
      tauto
    · simp only [if_neg h', gt_iff_lt, if_pos h, exibirPistas, List.mem_append, List.mem_cons, ihd]
      tauto
    · simp only [if_neg h, gt_iff_lt, if_neg h', exibirPistas, List.mem_append, List.mem_cons]
      subst e
      tauto

theorem ehBST_inserirPista (t : NoPista) (p : CString) (hlen : strlen p ≤ MAX_PISTA - 1)
    (ht : ehBST t) : ehBST (inserirPista t (some p)) := by
  by_cases hp : p = []
  · subst hp; rw [inserirPista_vazio]; exact ht
  induction t with
  | nil =>
    rw [inserirPista_nil_some p hp]
    simp [criarNoPista, ehBST, exibirPistas]
  | node k esq dir ihe ihd =>
    obtain ⟨he, hd, hl, hr⟩ := ht
    rw [inserirPista_node_some k esq dir p hp]
    rcases strcmp_cases p k with ⟨h, hlt⟩ | ⟨h, h', hlt⟩ | ⟨h, h', _⟩
    · rw [if_pos h]
      refine ⟨ihe he, hd, ?_, hr⟩
      intro x hx
      rcases (mem_exibirPistas_inserirPista esq p hp hlen x).1 hx with hx | hx
      · exact hl x hx
      · subst hx; exact hlt
    · rw [if_neg h', if_pos h]
      refine ⟨he, ihd hd, hl, ?_⟩
      intro x hx
      rcases (mem_exibirPistas_inserirPista dir p hp hlen x).1 hx with hx | hx
      · exact hr x hx
      · subst hx; exact hlt
    · rw [if_neg h, if_neg h']
      exact ⟨he, hd, hl, hr⟩

theorem pairwise_exibirPistas_of_ehBST (t : NoPista) (ht : ehBST t) :
    List.Pairwise lexLt (exibirPistas t) := by
  induction t with
  | nil => simp [exibirPistas]
  | node k esq dir ihe ihd =>
    obtain ⟨he, hd, hl, hr⟩ := ht
    simp only [exibirPistas]
    rw [List.pairwise_append]
    refine ⟨ihe he, ?_, ?_⟩
    · rw [List.pairwise_cons]
      exact ⟨hr, ihd hd⟩
    · intro a ha b hb
      rcases List.mem_cons.1 hb with hb | hb
      · subst hb; exact hl a ha
      · exact lexLt_trans (hl a ha) (hr b hb)

theorem ehBST_inserirTodas (textos : List CString) (t : NoPista)
    (hlen : ∀ x ∈ textos, strlen x ≤ MAX_PISTA - 1) (ht : ehBST t) :
    ehBST (inserirTodas t textos) := by
  induction textos generalizing t with
  | nil => exact ht
  | cons p resto ih =>
    simp only [inserirTodas, List.foldl_cons]
    exact ih _ (fun x hx => hlen x (List.mem_cons_of_mem _ hx))
      (ehBST_inserirPista t p (hlen p (List.mem_cons_self _ _)) ht)

theorem mem_exibirPistas_inserirTodas (textos : List CString) (t : NoPista)
    (hlen : ∀ x ∈ textos, strlen x ≤ MAX_PISTA - 1) (x : CString) :
    x ∈ exibirPistas (inserirTodas t textos) ↔
      x ∈ exibirPistas t ∨ (x ∈ textos ∧ x ≠ []) := by
  induction textos generalizing t with
  | nil => simp [inserirTodas]
  | cons p resto ih =>
    have ih' := ih (inserirPista t (some p)) (fun y hy => hlen y (List.mem_cons_of_mem _ hy))
    simp only [inserirTodas, List.foldl_cons] at ih' ⊢
    rw [ih']
    by_cases hp : p = []
    · subst hp
      rw [inserirPista_vazio]
      simp only [List.mem_cons]
      constructor
      · rintro (h | ⟨h, hne⟩)
        · exact Or.inl h
        · exact Or.inr ⟨Or.inr h, hne⟩
      · rintro (h | ⟨h | h, hne⟩)
        · exact Or.inl h
        · exact absurd h hne
        · exact Or.inr ⟨h, hne⟩
    · rw [mem_exibirPistas_inserirPista t p hp (hlen p (List.mem_cons_self _ _))]
      simp only [List.mem_cons]
      constructor
      · rintro ((h | h) | ⟨h, hne⟩)
        · exact Or.inl h
        · exact Or.inr ⟨Or.inl h, h ▸ hp⟩
        · exact Or.inr ⟨Or.inr h, hne⟩
      · rintro (h | ⟨h | h, hne⟩)
        · exact Or.inl (Or.inl h)
        · exact Or.inl (Or.inr h)
        · exact Or.inr ⟨h, hne⟩

/-- Two strictly ascending lists with the same members are the same list. -/
theorem eq_of_pairwise_lexLt {l₁ l₂ : List CString} (h₁ : List.Pairwise lexLt l₁)
    (h₂ : List.Pairwise lexLt l₂) (hmem : ∀ x, x ∈ l₁ ↔ x ∈ l₂) : l₁ = l₂ := by
  haveI : IsAntisymm CString lexLt := ⟨fun a b hab hba => absurd hba (lexLt_asymm hab)⟩
  have hne : ∀ {a b : CString}, lexLt a b → a ≠ b := by
    intro a b hab e
    subst e
    exact lexLt_irrefl a hab
  have n₁ : l₁.Nodup := h₁.imp hne
  have n₂ : l₂.Nodup := h₂.imp hne
  exact List.eq_of_perm_of_sorted ((List.perm_ext_iff_of_nodup n₁ n₂).2 hmem) h₁ h₂

/-! ## C1: the in-order traversal is the sorted set of the inserted texts -/

/-- C1, as amended: for every finite sequence of texts of at most `MAX_PISTA - 1 = 99` bytes
inserted with `inserirPista` from the empty tree, the in-order traversal is strictly
ascending in byte-wise lexicographic order, has no duplicates, holds exactly the distinct
non-empty texts inserted, and is the same for every reordering of the insertions. -/
theorem c1_inorder_is_sorted_set (textos : List CString)
    (hlen : ∀ x ∈ textos, strlen x ≤ MAX_PISTA - 1) :
    List.Pairwise lexLt (exibirPistas (inserirTodas .nil textos)) ∧
    (exibirPistas (inserirTodas .nil textos)).Nodup ∧
    (∀ x, x ∈ exibirPistas (inserirTodas .nil textos) ↔ x ∈ textos ∧ x ≠ []) ∧
    ∀ outros : List CString, outros.Perm textos →
      exibirPistas (inserirTodas .nil outros) = exibirPistas (inserirTodas .nil textos) := by
  have hsorted : ∀ ts : List CString, (∀ x ∈ ts, strlen x ≤ MAX_PISTA - 1) →
      List.Pairwise lexLt (exibirPistas (inserirTodas .nil ts)) := fun ts h =>
    pairwise_exibirPistas_of_ehBST _ (ehBST_inserirTodas ts .nil h trivial)
  have hmem : ∀ ts : List CString, (∀ x ∈ ts, strlen x ≤ MAX_PISTA - 1) →
      ∀ x, x ∈ exibirPistas (inserirTodas .nil ts) ↔ x ∈ ts ∧ x ≠ [] := by
    intro ts h x
    rw [mem_exibirPistas_inserirTodas ts .nil h x]
    simp [exibirPistas]
  refine ⟨hsorted textos hlen, ?_, hmem textos hlen, ?_⟩
  · refine (hsorted textos hlen).imp ?_
    intro a b hab e
    subst e
    exact lexLt_irrefl a hab
  · intro outros hperm
    have hlen' : ∀ x ∈ outros, strlen x ≤ MAX_PISTA - 1 := fun x hx => hlen x (hperm.mem_iff.1 hx)
    refine eq_of_pairwise_lexLt (hsorted outros hlen') (hsorted textos hlen) ?_
    intro x
    rw [hmem outros hlen', hmem textos hlen, hperm.mem_iff]

/-- C1 at the insertions `"b"`, `""`, `"a"`, `"b"`: the traversal is ascending. -/
theorem c1_inorder_is_sorted_set_witness :
    (∀ x ∈ [texto "b", texto "", texto "a", texto "b"], strlen x ≤ MAX_PISTA - 1) ∧
    List.Pairwise lexLt
      (exibirPistas (inserirTodas .nil [texto "b", texto "", texto "a", texto "b"])) :=
  ⟨by decide, (c1_inorder_is_sorted_set [texto "b", texto "", texto "a", texto "b"] (by decide)).1⟩

set_option maxRecDepth 100000 in
/-- C1 fails as stated: inserting the same text of 100 letters twice leaves two nodes, both
holding its first 99 letters, so the traversal repeats a text and lacks the inserted one. -/
theorem c1_long_text_counterexample :
    exibirPistas (inserirTodas .nil [letrasA 100, letrasA 100]) = [letrasA 99, letrasA 99] ∧
    ¬ List.Pairwise lexLt (exibirPistas (inserirTodas .nil [letrasA 100, letrasA 100])) ∧
    ¬ (exibirPistas (inserirTodas .nil [letrasA 100, letrasA 100])).Nodup ∧
    ¬ (letrasA 100 ∈ exibirPistas (inserirTodas .nil [letrasA 100, letrasA 100])) := by
  have h : exibirPistas (inserirTodas .nil [letrasA 100, letrasA 100])
      = [letrasA 99, letrasA 99] := by decide
  refine ⟨h, ?_, ?_, ?_⟩
  · rw [h]
    intro hp
    exact lexLt_irrefl _ ((List.pairwise_cons.1 hp).1 _ (List.mem_singleton_self _))
  · rw [h]
    simp
  · rw [h]
    decide

/-! ## C6: the hash is djb2 -/

theorem djb2_passo (hash c : Nat) :
    (((hash <<< 5) % ULONG_MOD + hash) % ULONG_MOD + c) % ULONG_MOD
      = (hash * 33 + c) % 2 ^ 64 := by
  rw [Nat.shiftLeft_eq]
  simp only [ULONG_MOD]
  omega

theorem hash_djb2_loop_ref (s : CString) : ∀ antes : CString,
    hash_djb2_loop (djb2_ref ((antes ++ s).map Subtype.val) antes.length) s
      = djb2_ref ((antes ++ s).map Subtype.val) (antes ++ s).length := by
  induction s with
  | nil => intro antes; simp [hash_djb2_loop]
  | cons c resto ih =>
    intro antes
    have hstep : (djb2_ref ((antes ++ c :: resto).map Subtype.val) antes.length * 33 + c.val)
        % 2 ^ 64 = djb2_ref ((antes ++ c :: resto).map Subtype.val) (antes.length + 1) := by
      have hget : ((antes ++ c :: resto).map Subtype.val).getD antes.length 0 = c.val := by
        rw [List.map_append, List.map_cons, List.getD_eq_getElem?_getD,
          List.getElem?_append_right (by simp)]
        simp
      rw [djb2_ref, hget]
    have h := ih (antes ++ [c])
    simp only [List.append_assoc, List.singleton_append, List.length_append, List.length_singleton]
      at h
    rw [hash_djb2_loop, djb2_passo, hstep, h]
    simp

/-- C6: `hash_djb2` is the reference djb2 value `h_n` of the `n` bytes of the string, with
`h_0 = 5381` and `h_{i+1} = (h_i * 33 + b_i) mod 2^64`; the bucket index used by
`inserirNaHash` and `encontrarSuspeito` is `hash_djb2(clue) mod 101`, which is in `0..100`;
the empty string hashes to 5381 and lands in bucket 28. -/
theorem c6_hash_djb2_is_reference (s : CString) (h : HashTable) :
    hash_djb2 s = djb2_ref (s.map Subtype.val) s.length ∧
    (indice s).val = hash_djb2 s % 101 ∧
    (indice s).val ≤ 100 ∧
    encontrarSuspeito h s = buscarCadeia s (h.tabela (indice s)) ∧
    (∀ v : CString, ∀ j : Fin HASH_SIZE, j ≠ indice s →
      (inserirNaHash h (some s) (some v)).tabela j = h.tabela j) ∧
    hash_djb2 [] = 5381 ∧
    (indice []).val = 28 := by
  refine ⟨?_, rfl, ?_, rfl, ?_, rfl, by decide⟩
  · have := hash_djb2_loop_ref s []
    simpa [hash_djb2, djb2_ref] using this
  · have : (indice s).val < 101 := (indice s).isLt
    omega
  · intro v j hj
    simp only [inserirNaHash]
    split <;> simp [Function.update, hj]

/-! ## Facts about the suspect table -/

theorem strcmp_self (a : CString) : strcmp a a = 0 := (strcmp_eq_zero_iff a a).2 rfl

theorem inicializar_fold (L : List (Fin HASH_SIZE)) : ∀ (h : HashTable) (j : Fin HASH_SIZE),
    (L.foldl (fun t i => (⟨Function.update t.tabela i []⟩ : HashTable)) h).tabela j
      = if j ∈ L then [] else h.tabela j := by
  induction L with
  | nil => intro h j; simp
  | cons i resto ih =>
    intro h j
    rw [List.foldl_cons, ih]
    by_cases hj : j ∈ resto
    · simp [hj]
    · by_cases hji : j = i
      · subst hji; simp [hj]
      · simp [hj, hji, Function.update_noteq hji]

theorem inicializarHash_tabela (h : HashTable) (j : Fin HASH_SIZE) :
    (inicializarHash h).tabela j = [] := by
  rw [inicializarHash, inicializar_fold]
  simp [List.mem_finRange]

theorem buscarCadeia_atualizarCadeia (k v : CString) : ∀ (l l' : List HashEntry),
    atualizarCadeia k v l = some l' → buscarCadeia k l' = some v := by
  intro l
  induction l with
  | nil => intro l' h; simp [atualizarCadeia] at h
  | cons cur prox ih =>
    intro l' h
    rw [atualizarCadeia] at h
    by_cases hc : strcmp cur.pista k = 0
    · rw [if_pos hc] at h
      cases h
      simp [buscarCadeia, hc]
    · rw [if_neg hc] at h
      cases hr : atualizarCadeia k v prox with
      | none => simp [hr] at h
      | some r =>
        simp only [hr, Option.map_some', Option.some.injEq] at h
        subst h
        simp [buscarCadeia, hc, ih r hr]

theorem atualizarCadeia_pistas (k v : CString) : ∀ (l l' : List HashEntry),
    atualizarCadeia k v l = some l' →
      l'.map HashEntry.pista = l.map HashEntry.pista ∧ k ∈ l.map HashEntry.pista := by
  intro l
  induction l with
  | nil => intro l' h; simp [atualizarCadeia] at h
  | cons cur prox ih =>
    intro l' h
    rw [atualizarCadeia] at h
    by_cases hc : strcmp cur.pista k = 0
    · rw [if_pos hc] at h
      cases h
      have := (strcmp_eq_zero_iff _ _).1 hc
      simp [this]
    · rw [if_neg hc] at h
      cases hr : atualizarCadeia k v prox with
      | none => simp [hr] at h
      | some r =>
        simp only [hr, Option.map_some', Option.some.injEq] at h
        subst h
        obtain ⟨h1, h2⟩ := ih r hr
        simp only [List.map_cons, h1, List.mem_cons, true_and]
        exact Or.inr h2

theorem atualizarCadeia_none (k v : CString) : ∀ l : List HashEntry,
    atualizarCadeia k v l = none → k ∉ l.map HashEntry.pista := by
  intro l
  induction l with
  | nil => intro _; simp
  | cons cur prox ih =>
    intro h
    rw [atualizarCadeia] at h
    by_cases hc : strcmp cur.pista k = 0
    · rw [if_pos hc] at h; cases h
    · rw [if_neg hc] at h
      have hr : atualizarCadeia k v prox = none := by
        cases hr : atualizarCadeia k v prox with
        | none => rfl
        | some r => simp [hr] at h
      have hne : ¬ k = cur.pista := fun e => hc ((strcmp_eq_zero_iff _ _).2 e.symm)
      simp only [List.map_cons, List.mem_cons, not_or]
      exact ⟨hne, ih hr⟩

theorem buscarCadeia_none (k : CString) : ∀ l : List HashEntry,
    k ∉ l.map HashEntry.pista → buscarCadeia k l = none := by
  intro l
  induction l with
  | nil => intro _; rfl
  | cons cur prox ih =>
    intro h
    simp only [List.map_cons, List.mem_cons, not_or] at h
    have hc : ¬ strcmp cur.pista k = 0 := fun e => h.1 ((strcmp_eq_zero_iff _ _).1 e).symm
    simp [buscarCadeia, hc, ih h.2]

/-- What one call of `inserirNaHash` with present arguments does to the chains. -/
theorem inserirNaHash_some (h : HashTable) (k v : CString) :
    (∃ l', atualizarCadeia k v (h.tabela (indice k)) = some l' ∧
        inserirNaHash h (some k) (some v) = ⟨Function.update h.tabela (indice k) l'⟩) ∨
      (atualizarCadeia k v (h.tabela (indice k)) = none ∧
        inserirNaHash h (some k) (some v) =
          ⟨Function.update h.tabela (indice k)
            ({ pista := k, suspeito := v } :: h.tabela (indice k))⟩) := by
  cases hr : atualizarCadeia k v (h.tabela (indice k)) with
  | none => right; simp [inserirNaHash, hr]
  | some l' => left; exact ⟨l', rfl, by simp [inserirNaHash, hr]⟩

theorem encontrarSuspeito_inserirNaHash (h : HashTable) (k v : CString) :
    encontrarSuspeito (inserirNaHash h (some k) (some v)) k = some v := by
  rcases inserirNaHash_some h k v with ⟨l', hl, he⟩ | ⟨_, he⟩
  · rw [he]
    simp only [encontrarSuspeito, Function.update_same]
    exact buscarCadeia_atualizarCadeia k v _ l' hl
  · rw [he]
    simp [encontrarSuspeito, Function.update_same, buscarCadeia, strcmp_self]

/-! ## C2: storing again the suspect that the table holds -/

theorem atualizarCadeiaPtr_externo (h : HashTable) (hval : Fin HASH_SIZE) (k v : CString) :
    ∀ (l : List HashEntry) (n : Nat),
      atualizarCadeiaPtr h hval k (.externo v) n l =
        match atualizarCadeia k v l with
        | some r => .atualizada r
        | none => .semEntrada := by
  intro l
  induction l with
  | nil => intro n; rfl
  | cons cur prox ih =>
    intro n
    by_cases hc : strcmp cur.pista k = 0
    · simp [atualizarCadeiaPtr, atualizarCadeia, hc, lerPonteiro]
    · rw [atualizarCadeiaPtr, atualizarCadeia, if_neg hc, if_neg hc, ih (n + 1)]
      cases atualizarCadeia k v prox <;> rfl

/-- For a suspect held outside the table the call is defined and is the call by value. -/
theorem inserirNaHashPtr_externo (h : HashTable) (k v : CString) :
    inserirNaHashPtr h (some k) (.externo v) = some (inserirNaHash h (some k) (some v)) := by
  simp only [inserirNaHashPtr, inserirNaHash, atualizarCadeiaPtr_externo, lerPonteiro]
  cases atualizarCadeia k v (h.tabela (indice k)) <;> rfl

/-- For suspects held outside the table, a lookup returns what was last stored. -/
theorem encontrarSuspeito_inserirNaHashPtr_externo (h : HashTable) (k v : CString) :
    (inserirNaHashPtr h (some k) (.externo v)).map (fun t => encontrarSuspeito t k)
      = some (some v) := by
  rw [inserirNaHashPtr_externo, Option.map_some', encontrarSuspeito_inserirNaHash]

theorem buscarCadeia_eq_posicaoCadeia (k : CString) : ∀ l : List HashEntry,
    buscarCadeia k l = (posicaoCadeia k l).bind (fun n => (l[n]?).map HashEntry.suspeito) := by
  intro l
  induction l with
  | nil => rfl
  | cons cur prox ih =>
    by_cases hc : strcmp cur.pista k = 0
    · simp [buscarCadeia, posicaoCadeia, hc]
    · rw [buscarCadeia, posicaoCadeia, if_neg hc, if_neg hc, ih]
      cases posicaoCadeia k prox <;> simp

/-- The pointer that `encontrarSuspeito` returns points to the string of the value model. -/
theorem lerPonteiro_encontrarSuspeitoPtr (h : HashTable) (k : CString) :
    lerPonteiro h (encontrarSuspeitoPtr h k) = encontrarSuspeito h k := by
  rw [encontrarSuspeito, buscarCadeia_eq_posicaoCadeia, encontrarSuspeitoPtr]
  cases posicaoCadeia k (h.tabela (indice k)) <;> simp [lerPonteiro]

theorem atualizarCadeiaPtr_alias (h : HashTable) (hval : Fin HASH_SIZE) (k : CString) :
    ∀ (l : List HashEntry) (n0 n : Nat), posicaoCadeia k l = some n →
      atualizarCadeiaPtr h hval k (.suspeitoDe hval (n0 + n)) n0 l = .indefinido := by
  intro l
  induction l with
  | nil => intro n0 n hn; simp [posicaoCadeia] at hn
  | cons cur prox ih =>
    intro n0 n hn
    by_cases hc : strcmp cur.pista k = 0
    · simp only [posicaoCadeia, hc, if_true, Option.some.injEq] at hn
      subst hn
      simp [atualizarCadeiaPtr, hc]
    · rw [posicaoCadeia, if_neg hc] at hn
      cases hp : posicaoCadeia k prox with
      | none => simp [hp] at hn
      | some m =>
        simp only [hp, Option.map_some', Option.some.injEq] at hn
        subst hn
        have := ih (n0 + 1) m hp
        rw [show n0 + 1 + m = n0 + (m + 1) by omega] at this
        rw [atualizarCadeiaPtr, if_neg hc, this]

/-- Storing for a clue the very pointer that `encontrarSuspeito` returns for it is undefined
in every table that has the clue: the block is freed before `strdup` copies from it. -/
theorem inserirNaHashPtr_alias (h : HashTable) (k : CString)
    (hk : encontrarSuspeitoPtr h k ≠ .nulo) :
    inserirNaHashPtr h (some k) (encontrarSuspeitoPtr h k) = none := by
  cases hp : posicaoCadeia k (h.tabela (indice k)) with
  | none => simp [encontrarSuspeitoPtr, hp] at hk
  | some n =>
    have hal := atualizarCadeiaPtr_alias h (indice k) k _ 0 n hp
    rw [Nat.zero_add] at hal
    simp [encontrarSuspeitoPtr, hp, inserirNaHashPtr, hal]

/-- C2 at the failing input: in the table that links `shoeprint` to `Carlos`, the pointer
that `encontrarSuspeito` returns for `shoeprint` is present and points to `Carlos`, and
`inserirNaHash` called with the clue `shoeprint` and that pointer frees the block before
`strdup` reads it, so the call is undefined and no table in which the lookup of `shoeprint`
returns `Carlos` is produced; with the same suspect held outside the table the lookup does
return `Carlos`. -/
theorem c2_stored_suspect_reinserted :
    encontrarSuspeitoPtr tabelaExemplo (texto "shoeprint") ≠ .nulo ∧
    lerPonteiro tabelaExemplo (encontrarSuspeitoPtr tabelaExemplo (texto "shoeprint"))
      = some (texto "Carlos") ∧
    (inserirNaHashPtr tabelaExemplo (some (texto "shoeprint"))
      (encontrarSuspeitoPtr tabelaExemplo (texto "shoeprint"))).isNone = true ∧
    (inserirNaHashPtr tabelaExemplo (some (texto "shoeprint"))
        (encontrarSuspeitoPtr tabelaExemplo (texto "shoeprint"))).map
        (fun t => encontrarSuspeito t (texto "shoeprint")) ≠ some (some (texto "Carlos")) ∧
    (inserirNaHashPtr tabelaExemplo (some (texto "shoeprint"))
        (.externo (texto "Carlos"))).map
        (fun t => encontrarSuspeito t (texto "shoeprint")) = some (some (texto "Carlos")) := by
  refine ⟨by decide, by decide, by decide, by decide, by decide⟩

/-! ## C3, C4, C5: invariant of the table, absent clues, NULL arguments -/

theorem soma_update {α : Type} (t : Fin HASH_SIZE → List α) (g : List α → Nat)
    (i : Fin HASH_SIZE) (l : List α) :
    ∑ j : Fin HASH_SIZE, g (Function.update t i l j) + g (t i) = ∑ j : Fin HASH_SIZE, g (t j) + g l := by
  rw [← Finset.add_sum_erase Finset.univ (fun j => g (Function.update t i l j)) (Finset.mem_univ i),
    ← Finset.add_sum_erase Finset.univ (fun j => g (t j)) (Finset.mem_univ i)]
  have hrest : ∑ j ∈ Finset.univ.erase i, g (Function.update t i l j)
      = ∑ j ∈ Finset.univ.erase i, g (t j) := by
    refine Finset.sum_congr rfl ?_
    intro j hj
    rw [Function.update_noteq (Finset.ne_of_mem_erase hj)]
  simp only [Function.update_same, hrest]
  omega

theorem bemFormada_inicializarHash (h0 : HashTable) : bemFormada (inicializarHash h0) := by
  intro i
  simp [inicializarHash_tabela]

theorem bemFormada_inserirNaHash (h : HashTable) (p s : Option CString) (hb : bemFormada h) :
    bemFormada (inserirNaHash h p s) := by
  cases p with
  | none => simpa [inserirNaHash] using hb
  | some k =>
    cases s with
    | none => simpa [inserirNaHash] using hb
    | some v =>
      intro i
      rcases inserirNaHash_some h k v with ⟨l', hl, he⟩ | ⟨hl, he⟩
      · rw [he]
        by_cases hi : i = indice k
        · subst hi
          obtain ⟨hp, _⟩ := atualizarCadeia_pistas k v _ l' hl
          simp only [Function.update_same, hp]
          refine ⟨?_, (hb (indice k)).2⟩
          intro e he'
          have hmem : e.pista ∈ l'.map HashEntry.pista := List.mem_map_of_mem _ he'
          rw [hp] at hmem
          obtain ⟨e₀, he₀, hpe⟩ := List.mem_map.1 hmem
          rw [← hpe]
          exact (hb (indice k)).1 e₀ he₀
        · simp only [Function.update_noteq hi]
          exact hb i
      · rw [he]
        by_cases hi : i = indice k
        · subst hi
          simp only [Function.update_same, List.map_cons, List.nodup_cons, List.mem_cons]
          refine ⟨?_, atualizarCadeia_none k v _ hl, (hb (indice k)).2⟩
          rintro e (he' | he')
          · subst he'; rfl
          · exact (hb (indice k)).1 e he'
        · simp only [Function.update_noteq hi]
          exact hb i

theorem bemFormada_inserirTodasNaHash (ops : List Insercao) : ∀ h : HashTable,
    bemFormada h → bemFormada (inserirTodasNaHash h ops) := by
  induction ops with
  | nil => intro h hb; exact hb
  | cons op resto ih =>
    intro h hb
    exact ih _ (bemFormada_inserirNaHash h op.1 op.2 hb)

theorem aposInsercoes_eq (h0 : HashTable) (ops : List Insercao) :
    aposInsercoes h0 ops = inserirTodasNaHash (inicializarHash h0) ops := rfl

theorem bemFormada_aposInsercoes (h0 : HashTable) (ops : List Insercao) :
    bemFormada (aposInsercoes h0 ops) :=
  bemFormada_inserirTodasNaHash ops _ (bemFormada_inicializarHash h0)

/-- In a well-formed table the entries for a clue are all in the chain of its bucket. -/
theorem numEntradasDe_eq (h : HashTable) (hb : bemFormada h) (k : CString) :
    numEntradasDe h k = (h.tabela (indice k)).countP (fun e => e.pista = k) := by
  rw [numEntradasDe]
  refine Finset.sum_eq_single (indice k) ?_ ?_
  · intro j _ hj
    rw [List.countP_eq_zero]
    intro e he hek
    have hek' : e.pista = k := by simpa using hek
    exact hj (by rw [← hek']; exact ((hb j).1 e he).symm)
  · intro hn
    exact absurd (Finset.mem_univ _) hn

theorem countP_pista_le_one (k : CString) : ∀ l : List HashEntry,
    (l.map HashEntry.pista).Nodup → l.countP (fun e => e.pista = k) ≤ 1 := by
  intro l
  induction l with
  | nil => intro _; simp
  | cons cur prox ih =>
    intro hn
    simp only [List.map_cons, List.nodup_cons] at hn
    by_cases hc : cur.pista = k
    · have hz : prox.countP (fun e => e.pista = k) = 0 := by
        rw [List.countP_eq_zero]
        intro e he hek
        have hek' : e.pista = k := by simpa using hek
        exact hn.1 (by rw [hc, ← hek']; exact List.mem_map_of_mem _ he)
      simp [List.countP_cons, hc, hz]
    · have := ih hn.2
      simp [List.countP_cons, hc, this]

theorem countP_pista_pos_iff (k : CString) (l : List HashEntry) :
    0 < l.countP (fun e => e.pista = k) ↔ k ∈ l.map HashEntry.pista := by
  rw [List.countP_pos_iff]
  simp only [decide_eq_true_eq, List.mem_map]

theorem numEntradas_update (h : HashTable) (i : Fin HASH_SIZE) (l : List HashEntry) :
    numEntradas ⟨Function.update h.tabela i l⟩ + (h.tabela i).length
      = numEntradas h + l.length :=
  soma_update h.tabela List.length i l

/-- C3: in every table reached from `inicializarHash` by calls of `inserirNaHash` there is at
most one entry for each clue over all 101 chains; inserting a clue that has an entry keeps
the number of entries and makes the lookup return the new suspect, and inserting a clue with
no entry adds exactly one entry; a fresh table has no entry. -/
theorem c3_one_entry_per_clue (h0 : HashTable) (ops : List Insercao) :
    (∀ k : CString, numEntradasDe (aposInsercoes h0 ops) k ≤ 1) ∧
    (∀ k v : CString, numEntradasDe (aposInsercoes h0 ops) k = 1 →
      numEntradas (inserirNaHash (aposInsercoes h0 ops) (some k) (some v))
          = numEntradas (aposInsercoes h0 ops) ∧
        numEntradasDe (inserirNaHash (aposInsercoes h0 ops) (some k) (some v)) k = 1 ∧
        encontrarSuspeito (inserirNaHash (aposInsercoes h0 ops) (some k) (some v)) k = some v) ∧
    (∀ k v : CString, numEntradasDe (aposInsercoes h0 ops) k = 0 →
      numEntradas (inserirNaHash (aposInsercoes h0 ops) (some k) (some v))
          = numEntradas (aposInsercoes h0 ops) + 1 ∧
        numEntradasDe (inserirNaHash (aposInsercoes h0 ops) (some k) (some v)) k = 1) ∧
    numEntradas (inicializarHash h0) = 0 := by
  have hb := bemFormada_aposInsercoes h0 ops
  generalize aposInsercoes h0 ops = h at hb
  have hle : ∀ (t : HashTable), bemFormada t → ∀ k, numEntradasDe t k ≤ 1 := by
    intro t ht k
    rw [numEntradasDe_eq t ht k]
    exact countP_pista_le_one k _ (ht (indice k)).2
  have hone : ∀ k v : CString, numEntradasDe (inserirNaHash h (some k) (some v)) k = 1 := by
    intro k v
    have hb' := bemFormada_inserirNaHash h (some k) (some v) hb
    have h1 := hle _ hb' k
    have h2 : 0 < numEntradasDe (inserirNaHash h (some k) (some v)) k := by
      rw [numEntradasDe_eq _ hb' k, countP_pista_pos_iff]
      by_contra hne
      have := buscarCadeia_none k _ hne
      have hf := encontrarSuspeito_inserirNaHash h k v
      rw [encontrarSuspeito, this] at hf
      cases hf
    omega
  refine ⟨hle h hb, ?_, ?_, ?_⟩
  · intro k v hk
    refine ⟨?_, hone k v, encontrarSuspeito_inserirNaHash h k v⟩
    rcases inserirNaHash_some h k v with ⟨l', hl, he⟩ | ⟨hl, _⟩
    · rw [he]
      have hlen : l'.length = (h.tabela (indice k)).length := by
        have := congrArg List.length (atualizarCadeia_pistas k v _ l' hl).1
        simpa using this
      have := numEntradas_update h (indice k) l'
      omega
    · have hne := atualizarCadeia_none k v _ hl
      rw [← countP_pista_pos_iff, ← numEntradasDe_eq h hb k] at hne
      omega
  · intro k v hk
    refine ⟨?_, hone k v⟩
    rcases inserirNaHash_some h k v with ⟨l', hl, _⟩ | ⟨_, he⟩
    · have hin := (atualizarCadeia_pistas k v _ l' hl).2
      rw [← countP_pista_pos_iff, ← numEntradasDe_eq h hb k] at hin
      omega
    · rw [he]
      have := numEntradas_update h (indice k) ({ pista := k, suspeito := v } :: h.tabela (indice k))
      simp only [List.length_cons] at this
      omega
  · simp [numEntradas, inicializarHash_tabela]

theorem temChave_inserirNaHash (h : HashTable) (p s : Option CString) (k : CString)
    (hk : temChave (inserirNaHash h p s) k) : temChave h k ∨ p = some k := by
  cases p with
  | none => left; simpa [inserirNaHash] using hk
  | some q =>
    cases s with
    | none => left; simpa [inserirNaHash] using hk
    | some v =>
      obtain ⟨i, e, he, hek⟩ := hk
      by_cases hi : i = indice q
      · subst hi
        rcases inserirNaHash_some h q v with ⟨l', hl, heq⟩ | ⟨_, heq⟩
        · rw [heq] at he
          simp only [Function.update_same] at he
          have hmem : e.pista ∈ l'.map HashEntry.pista := List.mem_map_of_mem _ he
          rw [(atualizarCadeia_pistas q v _ l' hl).1] at hmem
          obtain ⟨e₀, he₀, hpe⟩ := List.mem_map.1 hmem
          exact Or.inl ⟨indice q, e₀, he₀, hpe.trans hek⟩
        · rw [heq] at he
          simp only [Function.update_same, List.mem_cons] at he
          rcases he with he | he
          · subst he
            right
            exact congrArg some hek
          · exact Or.inl ⟨indice q, e, he, hek⟩
      · rcases inserirNaHash_some h q v with ⟨l', _, heq⟩ | ⟨_, heq⟩ <;>
        · rw [heq] at he
          simp only [Function.update_noteq hi] at he
          exact Or.inl ⟨i, e, he, hek⟩

theorem temChave_inserirTodasNaHash (ops : List Insercao) (k : CString) : ∀ h : HashTable,
    temChave (inserirTodasNaHash h ops) k → temChave h k ∨ ∃ op ∈ ops, op.1 = some k := by
  induction ops with
  | nil => intro h hk; exact Or.inl hk
  | cons op resto ih =>
    intro h hk
    rcases ih _ hk with h1 | ⟨op', hop', hk'⟩
    · rcases temChave_inserirNaHash h op.1 op.2 k h1 with h2 | h2
      · exact Or.inl h2
      · exact Or.inr ⟨op, List.mem_cons_self _ _, h2⟩
    · exact Or.inr ⟨op', List.mem_cons_of_mem _ hop', hk'⟩

theorem encontrarSuspeito_none_of_not_temChave (h : HashTable) (k : CString)
    (hk : ¬ temChave h k) : encontrarSuspeito h k = none := by
  apply buscarCadeia_none
  intro hmem
  obtain ⟨e, he, hek⟩ := List.mem_map.1 hmem
  exact hk ⟨indice k, e, he, hek⟩

theorem not_temChave_inicializarHash (h0 : HashTable) (k : CString) :
    ¬ temChave (inicializarHash h0) k := by
  rintro ⟨i, e, he, _⟩
  rw [inicializarHash_tabela] at he
  cases he

/-- C4: in a table reached from `inicializarHash` by calls of `inserirNaHash`, a clue that
was the clue argument of none of those calls is not found (`encontrarSuspeito` returns
NULL); in particular every lookup on a freshly initialised table finds nothing. -/
theorem c4_lookup_of_never_inserted (h0 : HashTable) (ops : List Insercao) (k : CString)
    (hk : ∀ op ∈ ops, op.1 ≠ some k) :
    encontrarSuspeito (aposInsercoes h0 ops) k = none ∧
    encontrarSuspeito (inicializarHash h0) k = none := by
  refine ⟨?_, encontrarSuspeito_none_of_not_temChave _ k (not_temChave_inicializarHash h0 k)⟩
  apply encontrarSuspeito_none_of_not_temChave
  intro ht
  rw [aposInsercoes_eq] at ht
  rcases temChave_inserirTodasNaHash ops k _ ht with h1 | ⟨op, hop, hop'⟩
  · exact not_temChave_inicializarHash h0 k h1
  · exact hk op hop hop'

/-- C4 after storing `("a", "X")`: the clue `"b"` is not found. -/
theorem c4_lookup_of_never_inserted_witness :
    (∀ op ∈ [((some (texto "a"), some (texto "X")) : Insercao)], op.1 ≠ some (texto "b")) ∧
    encontrarSuspeito (aposInsercoes tabelaVazia [(some (texto "a"), some (texto "X"))])
      (texto "b") = none :=
  ⟨by decide,
    (c4_lookup_of_never_inserted tabelaVazia [(some (texto "a"), some (texto "X"))] (texto "b")
      (by decide)).1⟩

/-- C5, as amended: `inserirNaHash` leaves the table as it is whenever the clue or the
suspect is NULL; an empty string is a present argument and is stored like any other text, so
the lookup of the clue then returns the suspect given. -/
theorem c5_null_argument_is_noop (h : HashTable) (pista suspeito : Option CString)
    (k v : CString) :
    inserirNaHash h none suspeito = h ∧
    inserirNaHash h pista none = h ∧
    encontrarSuspeito (inserirNaHash h (some []) (some v)) [] = some v ∧
    encontrarSuspeito (inserirNaHash h (some k) (some [])) k = some [] := by
  refine ⟨?_, ?_, encontrarSuspeito_inserirNaHash h [] v, encontrarSuspeito_inserirNaHash h k []⟩
  · simp [inserirNaHash]
  · cases pista <;> simp [inserirNaHash]

/-- C5 fails as stated: on the empty table, inserting the empty clue with suspect `Carlos`,
or the clue `a` with the empty suspect, adds an entry, so the table is not the one before. -/
theorem c5_empty_argument_counterexample :
    numEntradas tabelaVazia = 0 ∧
    numEntradas (inserirNaHash tabelaVazia (some (texto "")) (some (texto "Carlos"))) = 1 ∧
    encontrarSuspeito (inserirNaHash tabelaVazia (some (texto "")) (some (texto "Carlos")))
      (texto "") = some (texto "Carlos") ∧
    inserirNaHash tabelaVazia (some (texto "")) (some (texto "Carlos")) ≠ tabelaVazia ∧
    numEntradas (inserirNaHash tabelaVazia (some (texto "a")) (some (texto ""))) = 1 ∧
    inserirNaHash tabelaVazia (some (texto "a")) (some (texto "")) ≠ tabelaVazia := by
  refine ⟨by decide, by decide, by decide, ?_, by decide, ?_⟩
  · intro e
    have := congrArg numEntradas e
    revert this
    decide
  · intro e
    have := congrArg numEntradas e
    revert this
    decide

/-! ## C7: the count is a tally over the clues of the tree -/

theorem contar_node (k : CString) (esq dir : NoPista) (h : HashTable) (a : CString) :
    contarPistasDoSuspeitoRec (.node k esq dir) h a =
      contarPistasDoSuspeitoRec esq h a + (if apontaPara h a k then 1 else 0)
        + contarPistasDoSuspeitoRec dir h a := by
  rcases hr : encontrarSuspeito h k with _ | s
  · rw [contarPistasDoSuspeitoRec]
    simp [apontaPara, hr]
  · rw [contarPistasDoSuspeitoRec]
    by_cases hs : str_iequals s a = true <;> simp [apontaPara, hr, hs]

theorem contar_eq_countP (r : NoPista) (h : HashTable) (a : CString) :
    contarPistasDoSuspeitoRec r h a = ((exibirPistas r).countP (apontaPara h a) : Nat) := by
  induction r with
  | nil => simp [contarPistasDoSuspeitoRec, exibirPistas]
  | node k esq dir ihe ihd =>
    rw [contar_node, ihe, ihd]
    simp only [exibirPistas, List.countP_append, List.countP_cons]
    by_cases hk : apontaPara h a k = true
    · simp [hk]; omega
    · simp [hk]

theorem numNos_eq_length (r : NoPista) : numNos r = (exibirPistas r).length := by
  induction r with
  | nil => rfl
  | node k esq dir ihe ihd => simp [numNos, exibirPistas, ihe, ihd]; omega

/-- C7: for every tree `r`, table `h` and accused name `a`, `contarPistasDoSuspeitoRec`
returns the number of nodes of `r` whose clue is found in `h` with a suspect equal to `a` up
to letter case; a clue absent from the table counts for nothing; the result is between 0 and
the number of nodes; and two trees holding the same clue texts, each once, give the same
count whatever their shapes. -/
theorem c7_count_is_tally (r : NoPista) (h : HashTable) (a : CString) :
    contarPistasDoSuspeitoRec r h a = ((exibirPistas r).countP (apontaPara h a) : Nat) ∧
    (∀ k : CString, encontrarSuspeito h k = none → apontaPara h a k = false) ∧
    (∀ k s : CString, encontrarSuspeito h k = some s → apontaPara h a k = str_iequals s a) ∧
    0 ≤ contarPistasDoSuspeitoRec r h a ∧
    contarPistasDoSuspeitoRec r h a ≤ (numNos r : Nat) ∧
    (∀ r' : NoPista, (exibirPistas r').Perm (exibirPistas r) →
      contarPistasDoSuspeitoRec r' h a = contarPistasDoSuspeitoRec r h a) ∧
    (∀ r' : NoPista, (exibirPistas r).Nodup → (exibirPistas r').Nodup →
      (∀ x, x ∈ exibirPistas r' ↔ x ∈ exibirPistas r) →
      contarPistasDoSuspeitoRec r' h a = contarPistasDoSuspeitoRec r h a) := by
  have hperm : ∀ r' : NoPista, (exibirPistas r').Perm (exibirPistas r) →
      contarPistasDoSuspeitoRec r' h a = contarPistasDoSuspeitoRec r h a := by
    intro r' hp
    rw [contar_eq_countP, contar_eq_countP, hp.countP_eq]
  refine ⟨contar_eq_countP r h a, ?_, ?_, ?_, ?_, hperm, ?_⟩
  · intro k hk; simp [apontaPara, hk]
  · intro k s hk; simp [apontaPara, hk]
  · rw [contar_eq_countP]; exact Int.natCast_nonneg _
  · rw [contar_eq_countP, numNos_eq_length]
    exact_mod_cast List.countP_le_length _
  · intro r' hn hn' hmem
    exact hperm r' ((List.perm_ext_iff_of_nodup hn' hn).2 hmem)

/-! ## Facts about `str_trim` and `str_iequals` -/

theorem saltarEspacos_eq_nil_iff (s : CString) :
    saltarEspacos s = [] ↔ ∀ c ∈ s, isspace c.val = true := by
  induction s with
  | nil => simp [saltarEspacos]
  | cons c resto ih =>
    by_cases hc : isspace c.val = true
    · simp [saltarEspacos, hc, ih]
    · simp [saltarEspacos, hc]

theorem str_trim_eq_nil_iff (s : CString) : str_trim s = [] ↔ saltarEspacos s = [] := by
  constructor
  · intro h
    by_contra hne
    have hpos : 0 < (saltarEspacos s).length := List.length_pos.2 hne
    have hlen := congrArg List.length h
    simp only [str_trim, strlen, List.length_take, List.length_nil] at hlen
    split_ifs at hlen with h0 <;> omega
  · intro h
    simp [str_trim, h, strlen]

theorem str_trim_nil : str_trim [] = [] := by
  simp [str_trim_eq_nil_iff, saltarEspacos]

theorem str_trim_take_eq_nil (s : CString) (n : Nat) (h : str_trim s = []) :
    str_trim (s.take n) = [] := by
  rw [str_trim_eq_nil_iff, saltarEspacos_eq_nil_iff] at h ⊢
  intro c hc
  exact h c (List.mem_of_mem_take hc)

theorem verificarSuspeitoFinal_vazio (pistas : NoPista) (h : HashTable) :
    verificarSuspeitoFinal pistas h (some []) = .nomeInvalido := by
  simp [verificarSuspeitoFinal, deref]

/-! ## C8: an accused name that is empty after trimming -/

/-- The accusation phase of `main` trims the accused name before calling
`verificarSuspeitoFinal`, and for every name whose trimmed form is empty (the empty string
or a whitespace-only one) it prints `Nome inválido.` alone: no count and no verdict, for
every clue tree and table; `verificarSuspeitoFinal` itself does so for a NULL or empty
argument. -/
theorem faseAcusacao_empty_after_trim (pistas : NoPista) (h : HashTable) (linha : CString)
    (hvazio : str_trim linha = []) :
    faseAcusacao pistas h (some linha) = some .nomeInvalido ∧
    verificarSuspeitoFinal pistas h (some (str_trim linha)) = .nomeInvalido ∧
    verificarSuspeitoFinal pistas h (some []) = .nomeInvalido ∧
    verificarSuspeitoFinal pistas h none = .nomeInvalido := by
  refine ⟨?_, ?_, verificarSuspeitoFinal_vazio pistas h, rfl⟩
  · simp only [faseAcusacao]
    split_ifs
    · rw [str_trim_take_eq_nil linha _ hvazio, verificarSuspeitoFinal_vazio]
    · rw [hvazio, verificarSuspeitoFinal_vazio]
  · rw [hvazio, verificarSuspeitoFinal_vazio]

/-- The accusation phase at the line of two spaces and a newline, with no clue collected and
an empty table. -/
theorem faseAcusacao_empty_after_trim_example :
    str_trim (texto "  \n") = [] ∧
    faseAcusacao .nil tabelaVazia (some (texto "  \n")) = some .nomeInvalido :=
  ⟨by decide, (faseAcusacao_empty_after_trim .nil tabelaVazia (texto "  \n") (by decide)).1⟩

/-- C8 at the failing input: `verificarSuspeitoFinal` tests for an empty name before it
trims, so called with two spaces, whose trimmed form is empty, it scores the empty name and
prints a verdict instead of `Nome inválido.`; with two clues linked to an empty suspect the
verdict is even `culpado` with count 2. -/
theorem c8_whitespace_name_gets_verdict :
    str_trim (texto "  ") = [] ∧
    verificarSuspeitoFinal .nil tabelaVazia (some (texto "  "))
      = .veredito (texto "") 0 .nenhuma ∧
    verificarSuspeitoFinal
        (inserirTodas .nil [texto "x", texto "y"])
        (inserirTodasNaHash tabelaVazia
          [(some (texto "x"), some (texto "")), (some (texto "y"), some (texto ""))])
        (some (texto "  "))
      = .veredito (texto "") 2 .culpado := by
  refine ⟨by decide, by decide, by decide⟩

/-! ## C9: the verdict as a function of the count -/

/-- C9: for a present, non-empty accused name `verificarSuspeitoFinal` prints the normalised
name (the name cut to the 99 bytes of the local buffer, then trimmed; the trimmed name itself
when it fits), the count that `contarPistasDoSuspeitoRec` computes for that name, and a
`DESFECHO` line fixed by the count alone: `culpado` exactly when the count is at least 2,
`insuficiente` exactly when it is 1, `nenhuma` exactly when it is 0; the count is never
negative, so exactly one of the three cases holds. -/
theorem c9_verdict_from_count (pistas : NoPista) (h : HashTable) (a : CString) (ha : a ≠ []) :
    ∃ d : Desfecho,
      verificarSuspeitoFinal pistas h (some a)
        = .veredito (str_trim (strncpy a 99))
            (contarPistasDoSuspeitoRec pistas h (str_trim (strncpy a 99))) d ∧
      0 ≤ contarPistasDoSuspeitoRec pistas h (str_trim (strncpy a 99)) ∧
      (d = .culpado ↔ 2 ≤ contarPistasDoSuspeitoRec pistas h (str_trim (strncpy a 99))) ∧
      (d = .insuficiente ↔ contarPistasDoSuspeitoRec pistas h (str_trim (strncpy a 99)) = 1) ∧
      (d = .nenhuma ↔ contarPistasDoSuspeitoRec pistas h (str_trim (strncpy a 99)) = 0) ∧
      (strlen a ≤ 99 → str_trim (strncpy a 99) = str_trim a) := by
  have hd : deref a ≠ 0 := fun e => ha ((deref_eq_zero_iff a).1 e)
  have h0 : 0 ≤ contarPistasDoSuspeitoRec pistas h (str_trim (strncpy a 99)) := by
    rw [contar_eq_countP]; exact Int.natCast_nonneg _
  have hfit : strlen a ≤ 99 → str_trim (strncpy a 99) = str_trim a := by
    intro hl; rw [strncpy_of_le hl]
  by_cases h2 : 2 ≤ contarPistasDoSuspeitoRec pistas h (str_trim (strncpy a 99))
  · refine ⟨.culpado, ?_, h0, ?_, ?_, ?_, hfit⟩
    · simp [verificarSuspeitoFinal, hd, h2]
    · simp [h2]
    · simp; omega
    · simp; omega
  · by_cases h1 : contarPistasDoSuspeitoRec pistas h (str_trim (strncpy a 99)) = 1
    · refine ⟨.insuficiente, ?_, h0, ?_, ?_, ?_, hfit⟩
      · simp [verificarSuspeitoFinal, hd, h1]
      · simp; omega
      · simp [h1]
      · simp; omega
    · refine ⟨.nenhuma, ?_, h0, ?_, ?_, ?_, hfit⟩
      · simp [verificarSuspeitoFinal, hd, h2, h1]
      · simp; omega
      · simp; omega
      · simp; omega

/-- C9 for the accused `Carlos` with no clue collected and an empty table. -/
theorem c9_verdict_from_count_witness :
    texto "Carlos" ≠ [] ∧
    ∃ d : Desfecho,
      verificarSuspeitoFinal .nil tabelaVazia (some (texto "Carlos"))
        = .veredito (str_trim (strncpy (texto "Carlos") 99))
            (contarPistasDoSuspeitoRec .nil tabelaVazia (str_trim (strncpy (texto "Carlos") 99))) d ∧
      0 ≤ contarPistasDoSuspeitoRec .nil tabelaVazia (str_trim (strncpy (texto "Carlos") 99)) ∧
      (d = .culpado ↔
        2 ≤ contarPistasDoSuspeitoRec .nil tabelaVazia (str_trim (strncpy (texto "Carlos") 99))) ∧
      (d = .insuficiente ↔
        contarPistasDoSuspeitoRec .nil tabelaVazia (str_trim (strncpy (texto "Carlos") 99)) = 1) ∧
      (d = .nenhuma ↔
        contarPistasDoSuspeitoRec .nil tabelaVazia (str_trim (strncpy (texto "Carlos") 99)) = 0) ∧
      (strlen (texto "Carlos") ≤ 99 →
        str_trim (strncpy (texto "Carlos") 99) = str_trim (texto "Carlos")) :=
  ⟨by decide, c9_verdict_from_count .nil tabelaVazia (texto "Carlos") (by decide)⟩

/-! ## C10: letter case does not matter -/

theorem isspace_of_tolower_eq {x y : Nat} (h : tolower x = tolower y) : isspace x = isspace y := by
  simp only [tolower] at h
  simp only [isspace, decide_eq_decide]
  split_ifs at h <;> omega

theorem str_iequals_iff : ∀ x y : CString,
    str_iequals x y = true ↔ minusculas x = minusculas y
  | [], [] => by simp [str_iequals, minusculas]
  | [], b :: bs => by
    have := b.property.1
    simp only [str_iequals, deref, minusculas, List.map_nil, List.map_cons, decide_eq_true_eq,
      reduceCtorEq, iff_false]
    omega
  | a :: as, [] => by
    have := a.property.1
    simp only [str_iequals, deref, minusculas, List.map_nil, List.map_cons, decide_eq_true_eq,
      reduceCtorEq, iff_false]
    omega
  | a :: as, b :: bs => by
    have ih := str_iequals_iff as bs
    simp only [minusculas] at ih
    by_cases hc : tolower a.val = tolower b.val
    · simp [str_iequals, minusculas, hc, ih]
    · simp [str_iequals, minusculas, hc]

theorem minusculas_length {a b : CString} (h : minusculas a = minusculas b) :
    a.length = b.length := by
  have := congrArg List.length h
  simpa [minusculas] using this

theorem minusculas_take {a b : CString} (h : minusculas a = minusculas b) (n : Nat) :
    minusculas (a.take n) = minusculas (b.take n) := by
  simp only [minusculas, List.map_take] at h ⊢
  rw [h]

theorem minusculas_drop {a b : CString} (h : minusculas a = minusculas b) (n : Nat) :
    minusculas (a.drop n) = minusculas (b.drop n) := by
  simp only [minusculas, List.map_drop] at h ⊢
  rw [h]

theorem isspace_deref_of_minusculas {a b : CString} (h : minusculas a = minusculas b) :
    isspace (deref a) = isspace (deref b) := by
  cases a with
  | nil =>
    cases b with
    | nil => rfl
    | cons d bs => simp [minusculas] at h
  | cons c as =>
    cases b with
    | nil => simp [minusculas] at h
    | cons d bs =>
      simp only [minusculas, List.map_cons, List.cons.injEq] at h
      exact isspace_of_tolower_eq h.1

theorem minusculas_saltarEspacos : ∀ {a b : CString}, minusculas a = minusculas b →
    minusculas (saltarEspacos a) = minusculas (saltarEspacos b)
  | [], [], _ => rfl
  | [], d :: bs, h => by simp [minusculas] at h
  | c :: as, [], h => by simp [minusculas] at h
  | c :: as, d :: bs, h => by
    have hsp : isspace c.val = isspace d.val :=
      isspace_deref_of_minusculas (a := c :: as) (b := d :: bs) h
    have htail : minusculas as = minusculas bs := by
      simp only [minusculas, List.map_cons, List.cons.injEq] at h ⊢
      exact h.2
    by_cases hd : isspace d.val = true
    · simp only [saltarEspacos, hsp, hd, if_true]
      exact minusculas_saltarEspacos htail
    · simp only [saltarEspacos, hsp, hd]
      exact h

theorem recuar_of_minusculas {a b : CString} (h : minusculas a = minusculas b) (e : Nat) :
    recuar a e = recuar b e := by
  induction e with
  | zero => rfl
  | succ n ih =>
    rw [recuar, recuar, isspace_deref_of_minusculas (minusculas_drop h (n + 1)), ih]

theorem minusculas_str_trim {a b : CString} (h : minusculas a = minusculas b) :
    minusculas (str_trim a) = minusculas (str_trim b) := by
  have hs := minusculas_saltarEspacos h
  have hl := minusculas_length hs
  simp only [str_trim, strlen, hl, recuar_of_minusculas hs]
  exact minusculas_take hs _

theorem minusculas_eq_nil_iff (a : CString) : minusculas a = [] ↔ a = [] := by
  cases a <;> simp [minusculas]

theorem contar_of_minusculas (r : NoPista) (h : HashTable) {a b : CString}
    (hab : minusculas a = minusculas b) :
    contarPistasDoSuspeitoRec r h a = contarPistasDoSuspeitoRec r h b := by
  have haponta : apontaPara h a = apontaPara h b := by
    funext k
    simp only [apontaPara]
    cases encontrarSuspeito h k with
    | none => rfl
    | some s =>
      simp only
      rw [Bool.eq_iff_iff, str_iequals_iff, str_iequals_iff, hab]
  rw [contar_eq_countP, contar_eq_countP, haponta]

/-- C10: `str_iequals(x, y)` is true exactly when `x` and `y` have the same length and the
same bytes after lower-casing; and for every clue tree, every table and every two names `a`
and `b` that differ only in the case of ASCII letters, `contarPistasDoSuspeitoRec` gives the
same count and `verificarSuspeitoFinal` prints the same count and the same `DESFECHO`. -/
theorem c10_case_insensitive (r : NoPista) (h : HashTable) (x y a b : CString)
    (hab : minusculas a = minusculas b) :
    (str_iequals x y = true ↔ strlen x = strlen y ∧ minusculas x = minusculas y) ∧
    contarPistasDoSuspeitoRec r h a = contarPistasDoSuspeitoRec r h b ∧
    (verificarSuspeitoFinal r h (some a)).total? = (verificarSuspeitoFinal r h (some b)).total? ∧
    (verificarSuspeitoFinal r h (some a)).desfecho?
      = (verificarSuspeitoFinal r h (some b)).desfecho? := by
  have hxy : str_iequals x y = true ↔ strlen x = strlen y ∧ minusculas x = minusculas y := by
    rw [str_iequals_iff]
    exact ⟨fun e => ⟨minusculas_length e, e⟩, fun e => e.2⟩
  have hnome : minusculas (str_trim (strncpy a (100 - 1)))
      = minusculas (str_trim (strncpy b (100 - 1))) :=
    minusculas_str_trim (minusculas_take hab _)
  have hc := contar_of_minusculas r h hnome
  have hderef : deref a = 0 ↔ deref b = 0 := by
    rw [deref_eq_zero_iff, deref_eq_zero_iff, ← minusculas_eq_nil_iff a, hab,
      minusculas_eq_nil_iff]
  refine ⟨hxy, contar_of_minusculas r h hab, ?_, ?_⟩
  · simp only [verificarSuspeitoFinal, hc]
    by_cases hb : deref b = 0
    · simp [hb, hderef.2 hb, Saida.total?]
    · have ha : ¬ deref a = 0 := fun e => hb (hderef.1 e)
      simp only [ha, hb, if_false]
      split_ifs <;> simp [Saida.total?]
  · simp only [verificarSuspeitoFinal, hc]
    by_cases hb : deref b = 0
    · simp [hb, hderef.2 hb, Saida.desfecho?]
    · have ha : ¬ deref a = 0 := fun e => hb (hderef.1 e)
      simp only [ha, hb, if_false]
      split_ifs <;> simp [Saida.desfecho?]

/-- C10 for `carlos` against `Carlos`, with two clues collected that the table links to
`Carlos`: the counts agree. -/
theorem c10_case_insensitive_witness :
    minusculas (texto "carlos") = minusculas (texto "Carlos") ∧
    contarPistasDoSuspeitoRec pistasExemplo tabelaExemplo (texto "carlos")
      = contarPistasDoSuspeitoRec pistasExemplo tabelaExemplo (texto "Carlos") ∧
    (verificarSuspeitoFinal pistasExemplo tabelaExemplo (some (texto "carlos"))).desfecho?
      = (verificarSuspeitoFinal pistasExemplo tabelaExemplo (some (texto "Carlos"))).desfecho? :=
  ⟨by decide,
    (c10_case_insensitive pistasExemplo tabelaExemplo [] [] (texto "carlos") (texto "Carlos")
      (by decide)).2.1,
    (c10_case_insensitive pistasExemplo tabelaExemplo [] [] (texto "carlos") (texto "Carlos")
      (by decide)).2.2.2⟩

/-! ## C15, C16, C17: insertion twice, the BST invariant, what insertion leaves alone -/

theorem inserirPista_idem (t : NoPista) (x : CString) (hlen : strlen x ≤ MAX_PISTA - 1) :
    inserirPista (inserirPista t (some x)) (some x) = inserirPista t (some x) := by
  by_cases hx : x = []
  · subst hx; rw [inserirPista_vazio, inserirPista_vazio]
  induction t with
  | nil =>
    have hc : strncpy x (MAX_PISTA - 1) = x := strncpy_of_le hlen
    rw [inserirPista_nil_some x hx, criarNoPista, hc, inserirPista_node_some _ _ _ x hx]
    simp [strcmp_self]
  | node k esq dir ihe ihd =>
    rw [inserirPista_node_some k esq dir x hx]
    rcases strcmp_cases x k with ⟨h, _⟩ | ⟨h, h', _⟩ | ⟨h, h', _⟩
    · rw [if_pos h, inserirPista_node_some _ _ _ x hx, if_pos h, ihe]
    · rw [if_neg h', if_pos h, inserirPista_node_some _ _ _ x hx, if_neg h', if_pos h, ihd]
    · rw [if_neg h, if_neg h', inserirPista_node_some _ _ _ x hx, if_neg h, if_neg h']

/-- C15, as amended: for every clue tree `t` and every text `x` of at most
`MAX_PISTA - 1 = 99` bytes, inserting `x` a second time gives the same tree, hence the same
in-order sequence, as inserting it once. -/
theorem c15_insert_twice (t : NoPista) (x : CString) (hlen : strlen x ≤ MAX_PISTA - 1) :
    inserirPista (inserirPista t (some x)) (some x) = inserirPista t (some x) ∧
    exibirPistas (inserirPista (inserirPista t (some x)) (some x))
      = exibirPistas (inserirPista t (some x)) := by
  rw [inserirPista_idem t x hlen]
  exact ⟨rfl, rfl⟩

/-- C15 for the text `torn page` inserted into the tree holding `shoeprint`. -/
theorem c15_insert_twice_witness :
    strlen (texto "torn page") ≤ MAX_PISTA - 1 ∧
    inserirPista (inserirPista (inserirTodas .nil [texto "shoeprint"]) (some (texto "torn page")))
        (some (texto "torn page"))
      = inserirPista (inserirTodas .nil [texto "shoeprint"]) (some (texto "torn page")) :=
  ⟨by decide,
    (c15_insert_twice (inserirTodas .nil [texto "shoeprint"]) (texto "torn page") (by decide)).1⟩

set_option maxRecDepth 100000 in
/-- C15 fails as stated: a text of 100 letters inserted into the empty tree leaves one node
holding its first 99 letters, and inserting the same text again adds a second such node. -/
theorem c15_long_text_counterexample :
    exibirPistas (inserirPista .nil (some (letrasA 100))) = [letrasA 99] ∧
    exibirPistas (inserirPista (inserirPista .nil (some (letrasA 100))) (some (letrasA 100)))
      = [letrasA 99, letrasA 99] ∧
    inserirPista (inserirPista .nil (some (letrasA 100))) (some (letrasA 100))
      ≠ inserirPista .nil (some (letrasA 100)) := by
  refine ⟨by decide, by decide, by decide⟩

/-- C16: `inserirPista` keeps the BST invariant (every key above all keys on its left and
below all keys on its right, so no key twice) for every text of at most
`MAX_PISTA - 1 = 99` bytes; the empty tree has the invariant, and so has every tree built
from it by inserting such texts. -/
theorem c16_insert_keeps_bst (t : NoPista) (x : CString) (textos : List CString)
    (ht : ehBST t) (hlen : strlen x ≤ MAX_PISTA - 1)
    (hlens : ∀ y ∈ textos, strlen y ≤ MAX_PISTA - 1) :
    ehBST (inserirPista t (some x)) ∧
    (exibirPistas (inserirPista t (some x))).Nodup ∧
    (exibirPistas t).Nodup ∧
    ehBST .nil ∧
    ehBST (inserirTodas .nil textos) := by
  have hnodup : ∀ r : NoPista, ehBST r → (exibirPistas r).Nodup := by
    intro r hr
    refine (pairwise_exibirPistas_of_ehBST r hr).imp ?_
    intro a b hab e
    subst e
    exact lexLt_irrefl a hab
  have h1 := ehBST_inserirPista t x hlen ht
  exact ⟨h1, hnodup _ h1, hnodup t ht, trivial, ehBST_inserirTodas textos .nil hlens trivial⟩

/-- C16 for `torn page` inserted into the tree holding `shoeprint`. -/
theorem c16_insert_keeps_bst_witness :
    ehBST (inserirTodas .nil [texto "shoeprint"]) ∧
    strlen (texto "torn page") ≤ MAX_PISTA - 1 ∧
    (∀ y ∈ [texto "b", texto "a"], strlen y ≤ MAX_PISTA - 1) ∧
    ehBST (inserirPista (inserirTodas .nil [texto "shoeprint"]) (some (texto "torn page"))) :=
  ⟨ehBST_inserirTodas [texto "shoeprint"] .nil (by decide) trivial, by decide, by decide,
    (c16_insert_keeps_bst (inserirTodas .nil [texto "shoeprint"]) (texto "torn page")
      [texto "b", texto "a"] (ehBST_inserirTodas [texto "shoeprint"] .nil (by decide) trivial)
      (by decide) (by decide)).1⟩

theorem subarvore_nil (c : List Lado) : subarvore .nil c = .nil := by
  cases c <;> rfl

theorem subarvore_inserirPista (t : NoPista) (p : Option CString) :
    ∀ (c : List Lado) (k : CString) (e d : NoPista), subarvore t c = .node k e d →
      ∃ e' d', subarvore (inserirPista t p) c = .node k e' d' := by
  cases p with
  | none =>
    intro c k e d h
    exact ⟨e, d, by cases t <;> simpa [inserirPista] using h⟩
  | some x =>
    by_cases hx : x = []
    · subst hx
      intro c k e d h
      exact ⟨e, d, by rw [inserirPista_vazio]; exact h⟩
    induction t with
    | nil =>
      intro c k e d h
      rw [subarvore_nil] at h
      cases h
    | node k₀ esq dir ihe ihd =>
      intro c k e d h
      rw [inserirPista_node_some k₀ esq dir x hx]
      rcases strcmp_cases x k₀ with ⟨hlt, _⟩ | ⟨hgt, hnl, _⟩ | ⟨hnl, hng, _⟩
      · rw [if_pos hlt]
        cases c with
        | nil =>
          simp only [subarvore, NoPista.node.injEq] at h
          obtain ⟨hk, _, _⟩ := h
          subst hk
          exact ⟨_, _, rfl⟩
        | cons l c' =>
          cases l with
          | esquerda => exact ihe c' k e d h
          | direita => exact ⟨e, d, h⟩
      · rw [if_neg hnl, if_pos hgt]
        cases c with
        | nil =>
          simp only [subarvore, NoPista.node.injEq] at h
          obtain ⟨hk, _, _⟩ := h
          subst hk
          exact ⟨_, _, rfl⟩
        | cons l c' =>
          cases l with
          | esquerda => exact ⟨e, d, h⟩
          | direita => exact ihd c' k e d h
      · rw [if_neg hnl, if_neg hng]
        exact ⟨e, d, h⟩

/-- The two outcomes of inserting a non-empty text: its key is met on the way down and the
tree stays as it is, or the search ends at a NULL link where a new leaf is attached. -/
theorem inserirPista_casos (t : NoPista) (x : CString) (hx : x ≠ []) :
    (inserirPista t (some x) = t ∧ x ∈ exibirPistas t) ∨
    (numNos (inserirPista t (some x)) = numNos t + 1 ∧
      (ehBST t → x ∉ exibirPistas t) ∧
      ∃ c, subarvore t c = .nil ∧ subarvore (inserirPista t (some x)) c = criarNoPista x) := by
  induction t with
  | nil =>
    right
    rw [inserirPista_nil_some x hx]
    exact ⟨rfl, fun _ => by simp [exibirPistas], [], rfl, rfl⟩
  | node k esq dir ihe ihd =>
    rw [inserirPista_node_some k esq dir x hx]
    rcases strcmp_cases x k with ⟨hlt, hl⟩ | ⟨hgt, hnl, hl⟩ | ⟨hnl, hng, heq⟩
    · rw [if_pos hlt]
      rcases ihe with ⟨h1, h2⟩ | ⟨h1, h2, c, h3, h4⟩
      · left
        rw [h1]
        exact ⟨rfl, by simp [exibirPistas, h2]⟩
      · right
        refine ⟨by simp only [numNos, h1]; omega, ?_, .esquerda :: c, h3, h4⟩
        rintro ⟨he, _, _, hr⟩ hmem
        simp only [exibirPistas, List.mem_append, List.mem_cons] at hmem
        rcases hmem with hm | hm | hm
        · exact h2 he hm
        · subst hm; exact lexLt_irrefl _ hl
        · exact lexLt_irrefl _ (lexLt_trans hl (hr x hm))
    · rw [if_neg hnl, if_pos hgt]
      rcases ihd with ⟨h1, h2⟩ | ⟨h1, h2, c, h3, h4⟩
      · left
        rw [h1]
        exact ⟨rfl, by simp [exibirPistas, h2]⟩
      · right
        refine ⟨by simp only [numNos, h1]; omega, ?_, .direita :: c, h3, h4⟩
        rintro ⟨_, hd, hle, _⟩ hmem
        simp only [exibirPistas, List.mem_append, List.mem_cons] at hmem
        rcases hmem with hm | hm | hm
        · exact lexLt_irrefl _ (lexLt_trans (hle x hm) hl)
        · subst hm; exact lexLt_irrefl _ hl
        · exact h2 hd hm
    · rw [if_neg hnl, if_neg hng]
      left
      exact ⟨rfl, by simp [exibirPistas, heq]⟩

/-- C17: for every clue tree `t` and text `x`, every node of `t` is still in
`inserirPista(t, x)` at the same place with the same text; the result has either the nodes
of `t`, and is then `t` itself, or one node more, and then the new node is a leaf attached at
a link that was NULL; in a tree with the BST invariant it has one node more exactly when `x`
is non-empty and not a key of `t`; inserting the empty text or NULL returns `t`. -/
theorem c17_insert_keeps_nodes (t : NoPista) (x : CString) :
    (∀ (c : List Lado) (k : CString) (e d : NoPista), subarvore t c = .node k e d →
      ∃ e' d', subarvore (inserirPista t (some x)) c = .node k e' d') ∧
    numNos t ≤ numNos (inserirPista t (some x)) ∧
    numNos (inserirPista t (some x)) ≤ numNos t + 1 ∧
    (numNos (inserirPista t (some x)) = numNos t → inserirPista t (some x) = t) ∧
    (numNos (inserirPista t (some x)) = numNos t + 1 →
      ∃ c, subarvore t c = .nil ∧ subarvore (inserirPista t (some x)) c = criarNoPista x) ∧
    (ehBST t →
      (numNos (inserirPista t (some x)) = numNos t + 1 ↔ x ≠ [] ∧ x ∉ exibirPistas t)) ∧
    inserirPista t (some []) = t ∧
    inserirPista t none = t := by
  have hnone : inserirPista t none = t := by cases t <;> simp [inserirPista]
  refine ⟨subarvore_inserirPista t (some x), ?_, ?_, ?_, ?_, ?_, inserirPista_vazio t, hnone⟩
  all_goals
    by_cases hx : x = []
    · subst hx
      simp [inserirPista_vazio]
    · rcases inserirPista_casos t x hx with ⟨h1, h2⟩ | ⟨h1, h2, h3⟩
      · simp [h1, h2]
      · first
          | omega
          | (intro h; omega)
          | (intro _; exact h3)
          | (intro hb; exact ⟨fun _ => ⟨hx, h2 hb⟩, fun _ => h1⟩)

/-! ## C18: `str_trim` removes exactly the surrounding whitespace -/

theorem saltarEspacos_eq_dropWhile (s : CString) : saltarEspacos s = s.dropWhile ehEspaco := by
  induction s with
  | nil => rfl
  | cons c resto ih =>
    by_cases hc : isspace c.val = true
    · simp [saltarEspacos, List.dropWhile, ehEspaco, hc, ih]
    · simp [saltarEspacos, List.dropWhile, ehEspaco, hc]

theorem dropWhile_cabeca (s : CString) :
    s.dropWhile ehEspaco = [] ∨
      ∃ c r, s.dropWhile ehEspaco = c :: r ∧ ehEspaco c = false := by
  induction s with
  | nil => left; rfl
  | cons c resto ih =>
    by_cases hc : ehEspaco c = true
    · simpa [List.dropWhile, hc] using ih
    · right
      exact ⟨c, resto, by simp [List.dropWhile, hc], by simpa using hc⟩

theorem deref_drop (l : CString) (n : Nat) (hn : n < l.length) :
    deref (l.drop n) = (l.get ⟨n, hn⟩).val := by
  rw [List.drop_eq_getElem_cons hn]
  rfl

theorem recuar_take (c : CChar) (r : CString) (hc : ehEspaco c = false) :
    ∀ e : Nat, e < (c :: r).length →
      (c :: r).take (recuar (c :: r) e + 1) = ((c :: r).take (e + 1)).rdropWhile ehEspaco := by
  intro e
  induction e with
  | zero =>
    intro _
    simp [recuar, List.rdropWhile_singleton, hc]
  | succ n ih =>
    intro hn
    have hn' : n < (c :: r).length := by omega
    have htake : (c :: r).take (n + 1 + 1)
        = (c :: r).take (n + 1) ++ [(c :: r).get ⟨n + 1, hn⟩] := by
      rw [List.take_succ, List.getElem?_eq_getElem hn]
      rfl
    rw [recuar, deref_drop (c :: r) (n + 1) hn, htake]
    by_cases hsp : isspace ((c :: r).get ⟨n + 1, hn⟩).val = true
    · rw [if_pos hsp, List.rdropWhile_concat_pos _ _ _ (by simpa [ehEspaco] using hsp)]
      exact ih hn'
    · rw [if_neg hsp, List.rdropWhile_concat_neg _ _ _ (by simpa [ehEspaco] using hsp), ← htake]

theorem str_trim_eq (s : CString) : str_trim s = semEspacosNasPontas s := by
  rw [str_trim, semEspacosNasPontas, saltarEspacos_eq_dropWhile]
  rcases dropWhile_cabeca s with h | ⟨c, r, h, hc⟩
  · simp [h, strlen]
  · rw [h]
    have hlast := recuar_take c r hc r.length (by simp)
    have hfull : (c :: r).take (r.length + 1) = c :: r := List.take_of_length_le (by simp)
    rw [hfull] at hlast
    rw [← hlast]
    simp only [strlen, List.length_cons]
    congr 1
    by_cases h0 : 0 < r.length
    · have : (0 : Int) < ((r.length + 1 : Nat) : Int) - 1 := by omega
      rw [if_pos this]
      have hnat : (((r.length + 1 : Nat) : Int) - 1).toNat = r.length := by omega
      rw [hnat]
      omega
    · have hz : r.length = 0 := by omega
      have : ¬ (0 : Int) < ((r.length + 1 : Nat) : Int) - 1 := by omega
      rw [if_neg this, hz]
      simp [recuar]

theorem semEspacosNasPontas_fixo (s : CString)
    (hini : ∀ c r, s = c :: r → ehEspaco c = false)
    (hfim : ∀ hs : s ≠ [], ehEspaco (s.getLast hs) = false) :
    semEspacosNasPontas s = s := by
  have h1 : s.dropWhile ehEspaco = s := by
    cases s with
    | nil => rfl
    | cons c r => simp [List.dropWhile, hini c r rfl]
  rw [semEspacosNasPontas, h1, List.rdropWhile_eq_self_iff]
  intro hs
  simp [hfim hs]

theorem semEspacosNasPontas_pontas (s : CString) :
    (∀ c r, semEspacosNasPontas s = c :: r → ehEspaco c = false) ∧
    (∀ hs : semEspacosNasPontas s ≠ [], ehEspaco ((semEspacosNasPontas s).getLast hs) = false) := by
  constructor
  · intro c r h
    rcases dropWhile_cabeca s with h0 | ⟨c', r', h0, hc'⟩
    · simp [semEspacosNasPontas, h0] at h
    · have hpre : semEspacosNasPontas s <+: c' :: r' := by
        rw [semEspacosNasPontas, h0]
        exact List.rdropWhile_prefix _ _
      rw [h] at hpre
      obtain ⟨t, ht⟩ := hpre
      simp only [List.cons_append, List.cons.injEq] at ht
      rw [ht.1]
      exact hc'
  · intro hs
    have := List.rdropWhile_last_not ehEspaco (s.dropWhile ehEspaco) hs
    simpa [semEspacosNasPontas] using this

theorem rdropWhile_append_rtakeWhile (l : CString) :
    l.rdropWhile ehEspaco ++ l.rtakeWhile ehEspaco = l := by
  have h := List.takeWhile_append_dropWhile ehEspaco l.reverse
  have h' := congrArg List.reverse h
  rw [List.reverse_append, List.reverse_reverse] at h'
  exact h'

/-- C18: for every string `s`, `str_trim` yields `s` without its longest leading run and its
longest trailing run of whitespace (space, tab, newline, vertical tab, form feed, carriage
return), every other byte kept in order: `s` is a run of whitespace, then the result, then a
run of whitespace, and the result neither starts nor ends with whitespace; an empty or
all-whitespace `s` gives the empty string, an `s` with no whitespace at either end is
unchanged, and trimming twice is trimming once. -/
theorem c18_str_trim_exact (s : CString) :
    str_trim s = semEspacosNasPontas s ∧
    (∃ antes depois : CString, s = antes ++ str_trim s ++ depois ∧
      (∀ c ∈ antes, ehEspaco c = true) ∧ (∀ c ∈ depois, ehEspaco c = true)) ∧
    (∀ c r, str_trim s = c :: r → ehEspaco c = false) ∧
    (∀ hs : str_trim s ≠ [], ehEspaco ((str_trim s).getLast hs) = false) ∧
    (∀ n : Nat, isspace n = true ↔ n = 32 ∨ n = 9 ∨ n = 10 ∨ n = 11 ∨ n = 12 ∨ n = 13) ∧
    ((∀ c ∈ s, ehEspaco c = true) → str_trim s = []) ∧
    str_trim [] = [] ∧
    ((∀ c r, s = c :: r → ehEspaco c = false) →
      (∀ hs : s ≠ [], ehEspaco (s.getLast hs) = false) → str_trim s = s) ∧
    str_trim (str_trim s) = str_trim s := by
  have hp := semEspacosNasPontas_pontas s
  refine ⟨str_trim_eq s, ?_, ?_, ?_, ?_, ?_, str_trim_nil, ?_, ?_⟩
  · refine ⟨s.takeWhile ehEspaco, (s.dropWhile ehEspaco).rtakeWhile ehEspaco, ?_, ?_, ?_⟩
    · rw [str_trim_eq, semEspacosNasPontas, List.append_assoc, rdropWhile_append_rtakeWhile,
        List.takeWhile_append_dropWhile]
    · intro c hc
      exact List.mem_takeWhile_imp hc
    · intro c hc
      exact List.mem_rtakeWhile_imp hc
  · rw [str_trim_eq]; exact hp.1
  · rw [str_trim_eq]; exact hp.2
  · intro n
    simp only [isspace, decide_eq_true_eq]
    omega
  · intro hall
    rw [str_trim_eq_nil_iff, saltarEspacos_eq_nil_iff]
    exact hall
  · intro hini hfim
    rw [str_trim_eq]
    exact semEspacosNasPontas_fixo s hini hfim
  · rw [str_trim_eq (str_trim s), str_trim_eq s]
    exact semEspacosNasPontas_fixo _ hp.1 hp.2

/-! ## C19: an insertion changes the mapping of its own clue only -/

theorem buscarCadeia_atualizarCadeia_outro (k v k' : CString) (hne : k ≠ k') :
    ∀ (l l' : List HashEntry), atualizarCadeia k v l = some l' →
      buscarCadeia k' l' = buscarCadeia k' l := by
  intro l
  induction l with
  | nil => intro l' h; simp [atualizarCadeia] at h
  | cons cur prox ih =>
    intro l' h
    rw [atualizarCadeia] at h
    by_cases hc : strcmp cur.pista k = 0
    · rw [if_pos hc] at h
      cases h
      have hk : cur.pista = k := (strcmp_eq_zero_iff _ _).1 hc
      have hc' : ¬ strcmp cur.pista k' = 0 := fun e =>
        hne (hk.symm.trans ((strcmp_eq_zero_iff _ _).1 e))
      simp [buscarCadeia, hc']
    · rw [if_neg hc] at h
      cases hr : atualizarCadeia k v prox with
      | none => simp [hr] at h
      | some r =>
        simp only [hr, Option.map_some', Option.some.injEq] at h
        subst h
        simp [buscarCadeia, ih r hr]

/-- C19: for every table `h` (reached from `inicializarHash` or not), every call
`inserirNaHash(h, k, v)` and every clue `k'` other than `k`, `encontrarSuspeito` returns for
`k'` after the call what it returned before, whether or not `k` and `k'` share a bucket. -/
theorem c19_insert_frame (h : HashTable) (pista suspeito : Option CString) (k' : CString)
    (hne : pista ≠ some k') :
    encontrarSuspeito (inserirNaHash h pista suspeito) k' = encontrarSuspeito h k' := by
  cases pista with
  | none => simp [inserirNaHash]
  | some k =>
    cases suspeito with
    | none => simp [inserirNaHash]
    | some v =>
      have hk : k ≠ k' := fun e => hne (congrArg some e)
      by_cases hi : indice k' = indice k
      · rcases inserirNaHash_some h k v with ⟨l', hl, he⟩ | ⟨_, he⟩
        · rw [he, encontrarSuspeito, encontrarSuspeito, hi]
          simp only [Function.update_same]
          exact buscarCadeia_atualizarCadeia_outro k v k' hk _ l' hl
        · rw [he, encontrarSuspeito, encontrarSuspeito, hi]
          have hc : ¬ strcmp k k' = 0 := fun e => hk ((strcmp_eq_zero_iff _ _).1 e)
          simp [Function.update_same, buscarCadeia, hc]
      · rcases inserirNaHash_some h k v with ⟨l', _, he⟩ | ⟨_, he⟩ <;>
        · rw [he]
          simp only [encontrarSuspeito, Function.update_noteq hi]

/-- C19 for the clues `aa` and `dc`, which share bucket 56: storing a new suspect for `dc`
leaves the lookup of `aa` as it was. -/
theorem c19_insert_frame_witness :
    (some (texto "dc") ≠ some (texto "aa")) ∧
    indice (texto "dc") = indice (texto "aa") ∧
    encontrarSuspeito
        (inserirNaHash
          (inserirTodasNaHash tabelaVazia
            [(some (texto "aa"), some (texto "X")), (some (texto "dc"), some (texto "Y"))])
          (some (texto "dc")) (some (texto "Z")))
        (texto "aa")
      = encontrarSuspeito
          (inserirTodasNaHash tabelaVazia
            [(some (texto "aa"), some (texto "X")), (some (texto "dc"), some (texto "Y"))])
          (texto "aa") :=
  ⟨by decide, by decide,
    c19_insert_frame
      (inserirTodasNaHash tabelaVazia
        [(some (texto "aa"), some (texto "X")), (some (texto "dc"), some (texto "Y"))])
      (some (texto "dc")) (some (texto "Z")) (texto "aa") (by decide)⟩

/-! ## C11: a room is collected once -/

theorem salaEm_nil (c : List Lado) : salaEm .nil c = .nil := by
  cases c <;> rfl

theorem pistaDe_marcarColetada (m : Sala) : ∀ c : List Lado,
    pistaDe (salaEm (marcarColetada m c) c) = [] := by
  induction m with
  | nil => intro c; simp [marcarColetada, salaEm_nil, pistaDe]
  | node nome pista e d ihe ihd =>
    intro c
    cases c with
    | nil => simp [marcarColetada, salaEm, pistaDe]
    | cons l c' =>
      cases l with
      | esquerda => simpa [marcarColetada, salaEm] using ihe c'
      | direita => simpa [marcarColetada, salaEm] using ihd c'

theorem filhos_marcarColetada (m : Sala) : ∀ c : List Lado,
    esquerdaDe (salaEm (marcarColetada m c) c) = esquerdaDe (salaEm m c) ∧
    direitaDe (salaEm (marcarColetada m c) c) = direitaDe (salaEm m c) := by
  induction m with
  | nil => intro c; simp [marcarColetada]
  | node nome pista e d ihe ihd =>
    intro c
    cases c with
    | nil => simp [marcarColetada, salaEm, esquerdaDe, direitaDe]
    | cons l c' =>
      cases l with
      | esquerda => simpa [marcarColetada, salaEm] using ihe c'
      | direita => simpa [marcarColetada, salaEm] using ihd c'

theorem coletar_de_vazia (e : Estado) (h : pistaDe (salaEm e.mapa e.atual) = []) :
    coletar e = e := by
  simp [coletar, h, deref]

theorem coletar_de_pista (e : Estado) (h : pistaDe (salaEm e.mapa e.atual) ≠ []) :
    coletar e = { mapa := marcarColetada e.mapa e.atual, atual := e.atual,
                  raizPistas := inserirPista e.raizPistas (some (pistaDe (salaEm e.mapa e.atual))) } := by
  have hd : deref (pistaDe (salaEm e.mapa e.atual)) ≠ 0 := fun h0 => h ((deref_eq_zero_iff _).1 h0)
  simp [coletar, hd, adicionarPista]

theorem coletar_atual (e : Estado) : (coletar e).atual = e.atual := by
  by_cases h : pistaDe (salaEm e.mapa e.atual) = []
  · rw [coletar_de_vazia e h]
  · rw [coletar_de_pista e h]

theorem pistaDe_coletar (e : Estado) : pistaDe (salaEm (coletar e).mapa (coletar e).atual) = [] := by
  by_cases h : pistaDe (salaEm e.mapa e.atual) = []
  · rw [coletar_de_vazia e h]; exact h
  · rw [coletar_de_pista e h]
    exact pistaDe_marcarColetada _ _

theorem coletar_idem (e : Estado) : coletar (coletar e) = coletar e :=
  coletar_de_vazia _ (pistaDe_coletar e)

theorem comando_estado (e : Estado) (buffer : Option CString) :
    (comando e buffer).estado = e ∨
    (comando e buffer).estado = { e with atual := e.atual ++ [.esquerda] } ∨
    (comando e buffer).estado = { e with atual := e.atual ++ [.direita] } := by
  cases buffer with
  | none => left; rfl
  | some b =>
    simp only [comando]
    split_ifs <;> simp

/-- C11: the collection phase on a room with a non-empty clue inserts that clue into the
clue tree (where it then is, as it fits the key) and leaves the clue of the room empty, the
room otherwise as it was; on a room whose clue is empty it changes nothing; so running it
again on the same room, right away or after a command that did not move, leaves the clue
tree, its in-order sequence and size, and the map unchanged. -/
theorem c11_collect_once (e : Estado) :
    (pistaDe (salaEm e.mapa e.atual) ≠ [] →
      (coletar e).raizPistas
          = inserirPista e.raizPistas (some (pistaDe (salaEm e.mapa e.atual))) ∧
        (strlen (pistaDe (salaEm e.mapa e.atual)) ≤ MAX_PISTA - 1 →
          pistaDe (salaEm e.mapa e.atual) ∈ exibirPistas (coletar e).raizPistas)) ∧
    pistaDe (salaEm (coletar e).mapa e.atual) = [] ∧
    esquerdaDe (salaEm (coletar e).mapa e.atual) = esquerdaDe (salaEm e.mapa e.atual) ∧
    direitaDe (salaEm (coletar e).mapa e.atual) = direitaDe (salaEm e.mapa e.atual) ∧
    (coletar e).atual = e.atual ∧
    (pistaDe (salaEm e.mapa e.atual) = [] → coletar e = e) ∧
    coletar (coletar e) = coletar e ∧
    exibirPistas (coletar (coletar e)).raizPistas = exibirPistas (coletar e).raizPistas ∧
    numNos (coletar (coletar e)).raizPistas = numNos (coletar e).raizPistas ∧
    (coletar (coletar e)).mapa = (coletar e).mapa ∧
    (∀ buffer : Option CString, (comando (coletar e) buffer).estado.atual = e.atual →
      coletar (comando (coletar e) buffer).estado = coletar e) := by
  have hpista := pistaDe_coletar e
  rw [coletar_atual] at hpista
  have hfilhos : esquerdaDe (salaEm (coletar e).mapa e.atual) = esquerdaDe (salaEm e.mapa e.atual) ∧
      direitaDe (salaEm (coletar e).mapa e.atual) = direitaDe (salaEm e.mapa e.atual) := by
    by_cases h : pistaDe (salaEm e.mapa e.atual) = []
    · rw [coletar_de_vazia e h]; exact ⟨rfl, rfl⟩
    · rw [coletar_de_pista e h]; exact filhos_marcarColetada _ _
  refine ⟨?_, hpista, hfilhos.1, hfilhos.2, coletar_atual e, coletar_de_vazia e, coletar_idem e,
    by rw [coletar_idem], by rw [coletar_idem], by rw [coletar_idem], ?_⟩
  · intro h
    rw [coletar_de_pista e h]
    refine ⟨rfl, ?_⟩
    intro hlen
    exact (mem_exibirPistas_inserirPista _ _ h hlen _).2 (Or.inr rfl)
  · intro buffer hat
    rcases comando_estado (coletar e) buffer with h | h | h
    · rw [h, coletar_idem]
    · rw [h, coletar_atual] at hat
      simp at hat
    · rw [h, coletar_atual] at hat
      simp at hat

/-! ## C12, C13: the command phase -/

theorem salaEm_concat (m : Sala) : ∀ c : List Lado,
    salaEm m (c ++ [.esquerda]) = esquerdaDe (salaEm m c) ∧
    salaEm m (c ++ [.direita]) = direitaDe (salaEm m c) := by
  induction m with
  | nil => intro c; simp [salaEm_nil, esquerdaDe, direitaDe]
  | node nome pista e d ihe ihd =>
    intro c
    cases c with
    | nil => simp [salaEm, esquerdaDe, direitaDe]
    | cons l c' =>
      cases l with
      | esquerda => simpa [salaEm] using ihe c'
      | direita => simpa [salaEm] using ihd c'

theorem tolower_eq_iff (n m : Nat) (hm : 97 ≤ m ∧ m ≤ 122) :
    tolower n = m ↔ n = m ∨ n + 32 = m := by
  simp only [tolower]
  split_ifs <;> omega

/-- C12: in every state, a line starting with `e` or `E` when the current room has a left
child moves to that child, a line starting with `d` or `D` when it has a right child moves to
that child, and a line starting with `s` or `S` leaves the loop whether or not there is a
child; no command prints `Opção inválida.` in these cases, and the command phase never
changes the map (so no clue of any room) nor the clue tree. -/
theorem c12_command_transitions (e : Estado) (b : CString) :
    (tolower (deref b) = 101 → esquerdaDe (salaEm e.mapa e.atual) ≠ .nil →
      comando e (some b) = { estado := { e with atual := e.atual ++ [.esquerda] },
                             saiu := false, opcaoInvalida := false }) ∧
    (tolower (deref b) = 100 → direitaDe (salaEm e.mapa e.atual) ≠ .nil →
      comando e (some b) = { estado := { e with atual := e.atual ++ [.direita] },
                             saiu := false, opcaoInvalida := false }) ∧
    (tolower (deref b) = 115 →
      comando e (some b) = { estado := e, saiu := true, opcaoInvalida := false }) ∧
    salaEm e.mapa (e.atual ++ [.esquerda]) = esquerdaDe (salaEm e.mapa e.atual) ∧
    salaEm e.mapa (e.atual ++ [.direita]) = direitaDe (salaEm e.mapa e.atual) ∧
    (tolower (deref b) = 101 ↔ deref b = 101 ∨ deref b = 69) ∧
    (tolower (deref b) = 100 ↔ deref b = 100 ∨ deref b = 68) ∧
    (tolower (deref b) = 115 ↔ deref b = 115 ∨ deref b = 83) ∧
    (∀ buffer : Option CString, (comando e buffer).estado.mapa = e.mapa ∧
      (comando e buffer).estado.raizPistas = e.raizPistas) := by
  have hnl : ∀ n : Nat, tolower n = 101 ∨ tolower n = 100 ∨ tolower n = 115 → n ≠ 10 := by
    intro n hn h10
    subst h10
    simp [tolower] at hn
  refine ⟨?_, ?_, ?_, (salaEm_concat _ _).1, (salaEm_concat _ _).2, ?_, ?_, ?_, ?_⟩
  · intro ho hl
    simp [comando, hnl _ (Or.inl ho), ho, hl]
  · intro ho hr
    simp [comando, hnl _ (Or.inr (Or.inl ho)), ho, hr]
  · intro ho
    simp [comando, hnl _ (Or.inr (Or.inr ho)), ho]
  · rw [tolower_eq_iff _ _ (by omega)]; omega
  · rw [tolower_eq_iff _ _ (by omega)]; omega
  · rw [tolower_eq_iff _ _ (by omega)]; omega
  · intro buffer
    rcases comando_estado e buffer with h | h | h <;> rw [h] <;> exact ⟨rfl, rfl⟩

/-- C12 in the hall of the example map, after its clue was collected: `E` moves to the
library on the left. -/
theorem c12_command_transitions_witness :
    tolower (deref (texto "E\n")) = 101 ∧
    esquerdaDe (salaEm (coletar ⟨mapaExemplo, [], .nil⟩).mapa
      (coletar ⟨mapaExemplo, [], .nil⟩).atual) ≠ .nil ∧
    comando (coletar ⟨mapaExemplo, [], .nil⟩) (some (texto "E\n"))
      = { estado := { coletar ⟨mapaExemplo, [], .nil⟩ with
                      atual := (coletar ⟨mapaExemplo, [], .nil⟩).atual ++ [.esquerda] },
          saiu := false, opcaoInvalida := false } :=
  ⟨by decide, by decide,
    (c12_command_transitions (coletar ⟨mapaExemplo, [], .nil⟩) (texto "E\n")).1
      (by decide) (by decide)⟩

/-- C13, as amended: in every state, a line starting with `e` or `E` when there is no left
child, a line starting with `d` or `D` when there is no right child, and a line whose first
byte is none of `e`, `d`, `s` in either case and is not a newline, leave the state (current
room, map, clue tree) as it is, do not leave the loop and print `Opção inválida.`; an empty
line, and a failed read, also leave the state as it is and stay in the loop, but print
nothing. -/
theorem c13_invalid_commands (e : Estado) (b : CString) :
    (tolower (deref b) = 101 → esquerdaDe (salaEm e.mapa e.atual) = .nil →
      comando e (some b) = { estado := e, saiu := false, opcaoInvalida := true }) ∧
    (tolower (deref b) = 100 → direitaDe (salaEm e.mapa e.atual) = .nil →
      comando e (some b) = { estado := e, saiu := false, opcaoInvalida := true }) ∧
    (tolower (deref b) ≠ 101 → tolower (deref b) ≠ 100 → tolower (deref b) ≠ 115 →
      deref b ≠ 10 →
      comando e (some b) = { estado := e, saiu := false, opcaoInvalida := true }) ∧
    (deref b = 10 →
      comando e (some b) = { estado := e, saiu := false, opcaoInvalida := false }) ∧
    comando e none = { estado := e, saiu := false, opcaoInvalida := false } := by
  refine ⟨?_, ?_, ?_, ?_, rfl⟩
  · intro ho hl
    have h10 : deref b ≠ 10 := by
      intro h; rw [h] at ho; simp [tolower] at ho
    simp [comando, h10, ho, hl]
  · intro ho hr
    have h10 : deref b ≠ 10 := by
      intro h; rw [h] at ho; simp [tolower] at ho
    simp [comando, h10, ho, hr]
  · intro h1 h2 h3 h10
    simp [comando, h10, h1, h2, h3]
  · intro h10
    simp [comando, h10]

/-- C13 in the library of the example map, which has no child: `e` keeps the state and
prints `Opção inválida.`. -/
theorem c13_invalid_commands_witness :
    tolower (deref (texto "e\n")) = 101 ∧
    esquerdaDe (salaEm mapaExemplo [.esquerda]) = .nil ∧
    comando ⟨mapaExemplo, [.esquerda], .nil⟩ (some (texto "e\n"))
      = { estado := ⟨mapaExemplo, [.esquerda], .nil⟩, saiu := false, opcaoInvalida := true } :=
  ⟨by decide, by decide,
    (c13_invalid_commands ⟨mapaExemplo, [.esquerda], .nil⟩ (texto "e\n")).1
      (by decide) (by decide)⟩

/-- C13 fails as stated: on an empty line (a lone newline) the engine stays in the hall of
the example map but does not print `Opção inválida.`. -/
theorem c13_empty_line_counterexample :
    deref (texto "\n") ≠ 101 ∧ deref (texto "\n") ≠ 100 ∧ deref (texto "\n") ≠ 115 ∧
    (comando ⟨mapaExemplo, [], .nil⟩ (some (texto "\n"))).estado = ⟨mapaExemplo, [], .nil⟩ ∧
    (comando ⟨mapaExemplo, [], .nil⟩ (some (texto "\n"))).opcaoInvalida = false := by
  refine ⟨by decide, by decide, by decide, by decide, by decide⟩

/-! ## C14: the end-to-end scenarios A and B -/

/-- C14: on the example map (hall with `shoeprint`, library on the left with `torn page`,
kitchen on the right without clue), with the table linking both clues to `Carlos` and an
empty clue tree, the commands left, exit make `explorarSalas` return with both clues
collected, and accusing `Carlos` gives count 2 and `culpado`; the command exit alone makes
it return with the clue of the hall only, and accusing `Carlos` gives count 1 and
`insuficiente`. -/
theorem c14_scenarios_a_b :
    (explorarSalas mapaExemplo .nil [some (texto "e\n"), some (texto "s\n")]).map
        (fun r => exibirPistas r.2) = some [texto "shoeprint", texto "torn page"] ∧
    (explorarSalas mapaExemplo .nil [some (texto "e\n"), some (texto "s\n")]).map
        (fun r => contarPistasDoSuspeitoRec r.2 tabelaExemplo (texto "Carlos")) = some 2 ∧
    (explorarSalas mapaExemplo .nil [some (texto "e\n"), some (texto "s\n")]).map
        (fun r => verificarSuspeitoFinal r.2 tabelaExemplo (some (texto "Carlos")))
      = some (.veredito (texto "Carlos") 2 .culpado) ∧
    (explorarSalas mapaExemplo .nil [some (texto "e\n"), some (texto "s\n")]).map
        (fun r => faseAcusacao r.2 tabelaExemplo (some (texto "Carlos\n")))
      = some (some (.veredito (texto "Carlos") 2 .culpado)) ∧
    (explorarSalas mapaExemplo .nil [some (texto "s\n")]).map
        (fun r => exibirPistas r.2) = some [texto "shoeprint"] ∧
    (explorarSalas mapaExemplo .nil [some (texto "s\n")]).map
        (fun r => contarPistasDoSuspeitoRec r.2 tabelaExemplo (texto "Carlos")) = some 1 ∧
    (explorarSalas mapaExemplo .nil [some (texto "s\n")]).map
        (fun r => verificarSuspeitoFinal r.2 tabelaExemplo (some (texto "Carlos")))
      = some (.veredito (texto "Carlos") 1 .insuficiente) ∧
    (explorarSalas mapaExemplo .nil [some (texto "s\n")]).map
        (fun r => faseAcusacao r.2 tabelaExemplo (some (texto "Carlos\n")))
      = some (some (.veredito (texto "Carlos") 1 .insuficiente)) ∧
    encontrarSuspeito tabelaExemplo (texto "shoeprint") = some (texto "Carlos") ∧
    encontrarSuspeito tabelaExemplo (texto "torn page") = some (texto "Carlos") := by
  refine ⟨by decide, by decide, by decide, by decide, by decide, by decide, by decide,
    by decide, by decide, by decide⟩

/-! ## C20: exploration collects the clues of the rooms walked -/

theorem pistasCabem_of_construido (m : Sala) (h : Construido m) : pistasCabem m := by
  induction h with
  | nil => trivial
  | sala nome pista e d _ _ ihe ihd =>
    refine ⟨?_, ihe, ihd⟩
    cases pista with
    | none => simp [strlen]
    | some p =>
      by_cases hp : deref p = 0
      · simp [hp, strlen]
      · simp only [hp, ne_eq, not_false_eq_true, if_true, strlen, strncpy, List.length_take]
        omega

theorem pistasCabem_salaEm (m : Sala) (h : pistasCabem m) : ∀ q : List Lado,
    strlen (pistaDe (salaEm m q)) ≤ MAX_PISTA - 1 := by
  induction m with
  | nil => intro q; simp [salaEm_nil, pistaDe, strlen]
  | node nome pista e d ihe ihd =>
    intro q
    obtain ⟨h0, he, hd⟩ := h
    cases q with
    | nil => exact h0
    | cons l q' =>
      cases l with
      | esquerda => exact ihe he q'
      | direita => exact ihd hd q'

theorem limparCaminho_eq_nil_iff (m : Sala) (c : List Lado) : limparCaminho m c = .nil ↔ m = .nil := by
  cases m with
  | nil => simp [limparCaminho]
  | node nome pista e d =>
    cases c with
    | nil => simp [limparCaminho]
    | cons l c' => cases l <;> simp [limparCaminho]

/-- Emptying the clues on a way keeps the shape of the map. -/
theorem salaEm_limparCaminho_nil_iff (m : Sala) : ∀ c q : List Lado,
    salaEm (limparCaminho m c) q = .nil ↔ salaEm m q = .nil := by
  induction m with
  | nil => intro c q; simp [limparCaminho]
  | node nome pista e d ihe ihd =>
    intro c q
    cases q with
    | nil => simp only [salaEm]; exact limparCaminho_eq_nil_iff _ c
    | cons l q' =>
      cases c with
      | nil => cases l <;> simp [limparCaminho, salaEm]
      | cons l' c' =>
        cases l <;> cases l' <;> simp [limparCaminho, salaEm, ihe, ihd]

/-- The clue of each room after emptying the clues on a way. -/
theorem pistaDe_salaEm_limparCaminho (m : Sala) : ∀ c q : List Lado,
    pistaDe (salaEm (limparCaminho m c) q) = if q <+: c then [] else pistaDe (salaEm m q) := by
  induction m with
  | nil => intro c q; simp [limparCaminho, salaEm_nil, pistaDe]
  | node nome pista e d ihe ihd =>
    intro c q
    cases q with
    | nil =>
      cases c with
      | nil => simp [limparCaminho, salaEm, pistaDe]
      | cons l' c' => cases l' <;> simp [limparCaminho, salaEm, pistaDe]
    | cons l q' =>
      cases c with
      | nil => cases l <;> simp [limparCaminho, salaEm]
      | cons l' c' =>
        cases l <;> cases l' <;> simp [limparCaminho, salaEm, ihe, ihd, List.cons_prefix_cons]

theorem marcarColetada_limparCaminho (m : Sala) : ∀ (c : List Lado) (l : Lado),
    marcarColetada (limparCaminho m c) (c ++ [l]) = limparCaminho m (c ++ [l]) := by
  have hbase : ∀ s : Sala, marcarColetada s [] = limparCaminho s [] := by
    intro s; cases s <;> rfl
  induction m with
  | nil => intro c l; simp [limparCaminho, marcarColetada]
  | node nome pista e d ihe ihd =>
    intro c l
    cases c with
    | nil => cases l <;> simp [limparCaminho, marcarColetada, hbase]
    | cons l' c' => cases l' <;> simp [limparCaminho, marcarColetada, ihe, ihd]

theorem marcarColetada_de_vazia (m : Sala) : ∀ c : List Lado,
    pistaDe (salaEm m c) = [] → marcarColetada m c = m := by
  induction m with
  | nil => intro c _; simp [marcarColetada]
  | node nome pista e d ihe ihd =>
    intro c h
    cases c with
    | nil =>
      simp only [salaEm, pistaDe] at h
      simp [marcarColetada, h]
    | cons l c' =>
      cases l with
      | esquerda => simp only [salaEm] at h; simp [marcarColetada, ihe c' h]
      | direita => simp only [salaEm] at h; simp [marcarColetada, ihd c' h]

/-- The collection phase in one formula, whether or not the room has a clue. -/
theorem coletar_eq (e : Estado) :
    coletar e = { mapa := marcarColetada e.mapa e.atual, atual := e.atual,
                  raizPistas := inserirPista e.raizPistas (some (pistaDe (salaEm e.mapa e.atual))) } := by
  by_cases h : pistaDe (salaEm e.mapa e.atual) = []
  · rw [coletar_de_vazia e h, h, inserirPista_vazio, marcarColetada_de_vazia _ _ h]
  · exact coletar_de_pista e h

/-- Arriving in a room: when the rooms strictly above the current room have been collected
and the current room still has its clue, the collection phase gives a state in which the
rooms down to the current one have been collected. -/
theorem coletadoAte_coletar (mapa0 : Sala) (hcabe : pistasCabem mapa0) (e : Estado)
    (hsala : salaEm mapa0 e.atual ≠ .nil)
    (hmapa : marcarColetada e.mapa e.atual = limparCaminho mapa0 e.atual)
    (hpista : pistaDe (salaEm e.mapa e.atual) = pistaDe (salaEm mapa0 e.atual))
    (hbst : ehBST e.raizPistas)
    (hmem : ∀ x, x ∈ exibirPistas e.raizPistas ↔
      x ≠ [] ∧ ∃ q, (q <+: e.atual ∧ q ≠ e.atual) ∧ pistaDe (salaEm mapa0 q) = x) :
    coletadoAte mapa0 (coletar e) := by
  have hlen := pistasCabem_salaEm mapa0 hcabe e.atual
  rw [coletar_eq, hpista]
  refine ⟨hsala, hmapa, ehBST_inserirPista _ _ hlen hbst, ?_⟩
  intro x
  simp only
  by_cases hp : pistaDe (salaEm mapa0 e.atual) = []
  · rw [hp, inserirPista_vazio, hmem]
    constructor
    · rintro ⟨hx, q, ⟨hq, _⟩, hqx⟩
      exact ⟨hx, q, hq, hqx⟩
    · rintro ⟨hx, q, hq, hqx⟩
      refine ⟨hx, q, ⟨hq, ?_⟩, hqx⟩
      intro hqc
      rw [hqc, hp] at hqx
      exact hx hqx.symm
  · rw [mem_exibirPistas_inserirPista _ _ hp hlen, hmem]
    constructor
    · rintro (⟨hx, q, ⟨hq, _⟩, hqx⟩ | hx)
      · exact ⟨hx, q, hq, hqx⟩
      · exact ⟨by rw [hx]; exact hp, e.atual, List.prefix_refl _, hx.symm⟩
    · rintro ⟨hx, q, hq, hqx⟩
      by_cases hqc : q = e.atual
      · right
        rw [← hqx, hqc]
      · left
        exact ⟨hx, q, ⟨hq, hqc⟩, hqx⟩

theorem coletadoAte_inicio (mapa0 : Sala) (hcabe : pistasCabem mapa0) (hn : mapa0 ≠ .nil) :
    coletadoAte mapa0 (coletar { mapa := mapa0, atual := [], raizPistas := .nil }) := by
  have hraiz : salaEm mapa0 [] = mapa0 := by cases mapa0 <;> rfl
  refine coletadoAte_coletar mapa0 hcabe _ (by rw [hraiz]; exact hn) ?_ rfl trivial ?_
  · cases mapa0 <;> rfl
  · intro x
    simp only [exibirPistas, List.not_mem_nil, false_iff, not_and, not_exists]
    rintro _ q ⟨hq, hq'⟩
    exact absurd (List.prefix_nil.1 hq) hq'

theorem coletadoAte_descer (mapa0 : Sala) (hcabe : pistasCabem mapa0) (e : Estado)
    (he : coletadoAte mapa0 e) (l : Lado) (hsala : salaEm mapa0 (e.atual ++ [l]) ≠ .nil) :
    coletadoAte mapa0 (coletar { e with atual := e.atual ++ [l] }) := by
  obtain ⟨_, hmapa, hbst, hmem⟩ := he
  have hnp : ¬ (e.atual ++ [l]) <+: e.atual := by
    intro h
    have := h.length_le
    simp at this
  refine coletadoAte_coletar mapa0 hcabe _ hsala ?_ ?_ hbst ?_
  · simp only [hmapa]
    exact marcarColetada_limparCaminho _ _ _
  · simp only [hmapa]
    rw [pistaDe_salaEm_limparCaminho, if_neg hnp]
  · intro x
    rw [hmem]
    simp only
    constructor
    · rintro ⟨hx, q, hq, hqx⟩
      refine ⟨hx, q, ⟨hq.trans (List.prefix_append _ _), ?_⟩, hqx⟩
      intro hqc
      rw [hqc] at hq
      exact hnp hq
    · rintro ⟨hx, q, ⟨hq, hqc⟩, hqx⟩
      rcases List.prefix_concat_iff.1 hq with h | h
      · exact absurd h hqc
      · exact ⟨hx, q, h, hqx⟩

theorem noPrompt_cons (e : Estado) (b : Option CString) (bs : List (Option CString)) :
    noPrompt e (b :: bs) =
      if (comando (coletar e) b).saiu then (comando (coletar e) b).estado
      else noPrompt (comando (coletar e) b).estado bs := by
  by_cases h : (comando (coletar e) b).saiu = true
  · simp [noPrompt, aposEntradas, h]
  · simp [noPrompt, aposEntradas, h]

/-- The invariant of the exploration: at every prompt and at the exit, the rooms from the
root to the current room are the collected ones, and the current room is the one the valid
moves lead to. -/
theorem coletadoAte_noPrompt (mapa0 : Sala) (hcabe : pistasCabem mapa0) :
    ∀ (bs : List (Option CString)) (e : Estado), coletadoAte mapa0 (coletar e) →
      coletadoAte mapa0 (noPrompt e bs) ∧
        (noPrompt e bs).atual = movimentos mapa0 e.atual bs := by
  intro bs
  induction bs with
  | nil =>
    intro e he
    have h : noPrompt e [] = coletar e := by simp [noPrompt, aposEntradas]
    rw [h]
    exact ⟨he, coletar_atual e⟩
  | cons b resto ih =>
    intro e he
    have hat : (coletar e).atual = e.atual := coletar_atual e
    have hstay : coletadoAte mapa0 (noPrompt (coletar e) resto) ∧
        (noPrompt (coletar e) resto).atual = movimentos mapa0 e.atual resto := by
      have := ih (coletar e) (by rw [coletar_idem]; exact he)
      rwa [hat] at this
    have hfilho : ∀ l : Lado, salaEm (coletar e).mapa ((coletar e).atual ++ [l]) ≠ .nil ↔
        salaEm mapa0 (e.atual ++ [l]) ≠ .nil := by
      intro l
      rw [he.2.1, hat, not_iff_not]
      exact salaEm_limparCaminho_nil_iff _ _ _
    have hL := hfilho .esquerda
    have hR := hfilho .direita
    rw [(salaEm_concat _ _).1] at hL
    rw [(salaEm_concat _ _).2] at hR
    have hmove : ∀ l : Lado, salaEm mapa0 (e.atual ++ [l]) ≠ .nil →
        coletadoAte mapa0 (noPrompt { coletar e with atual := (coletar e).atual ++ [l] } resto) ∧
          (noPrompt { coletar e with atual := (coletar e).atual ++ [l] } resto).atual
            = movimentos mapa0 (e.atual ++ [l]) resto := by
      intro l hl
      have := ih { coletar e with atual := (coletar e).atual ++ [l] }
        (coletadoAte_descer mapa0 hcabe _ he l (by rw [hat]; exact hl))
      simp only [hat] at this ⊢
      exact this
    rw [noPrompt_cons]
    cases b with
    | none => simpa [comando, movimentos] using hstay
    | some b =>
      by_cases h10 : deref b = 10
      · simpa [comando, movimentos, h10] using hstay
      by_cases hE : tolower (deref b) = 101
      · by_cases hl : esquerdaDe (salaEm (coletar e).mapa (coletar e).atual) = .nil
        · have hl0 : salaEm mapa0 (e.atual ++ [.esquerda]) = .nil := by
            by_contra h; exact hL.2 h hl
          have hcmd : comando (coletar e) (some b)
              = { estado := coletar e, saiu := false, opcaoInvalida := true } := by
            simp [comando, h10, hE, hl]
          have hmov : movimentos mapa0 e.atual (some b :: resto)
              = movimentos mapa0 e.atual resto := by
            simp [movimentos, h10, hE, hl0]
          rw [hcmd, hmov]
          exact hstay
        · have hl0 : salaEm mapa0 (e.atual ++ [.esquerda]) ≠ .nil := hL.1 hl
          have hcmd : comando (coletar e) (some b)
              = { estado := { coletar e with atual := (coletar e).atual ++ [.esquerda] },
                  saiu := false, opcaoInvalida := false } := by
            simp [comando, h10, hE, hl]
          have hmov : movimentos mapa0 e.atual (some b :: resto)
              = movimentos mapa0 (e.atual ++ [.esquerda]) resto := by
            simp [movimentos, h10, hE, hl0]
          rw [hcmd, hmov]
          exact hmove .esquerda hl0
      by_cases hD : tolower (deref b) = 100
      · by_cases hr : direitaDe (salaEm (coletar e).mapa (coletar e).atual) = .nil
        · have hr0 : salaEm mapa0 (e.atual ++ [.direita]) = .nil := by
            by_contra h; exact hR.2 h hr
          have hcmd : comando (coletar e) (some b)
              = { estado := coletar e, saiu := false, opcaoInvalida := true } := by
            simp [comando, h10, hD, hr]
          have hmov : movimentos mapa0 e.atual (some b :: resto)
              = movimentos mapa0 e.atual resto := by
            simp [movimentos, h10, hD, hr0]
          rw [hcmd, hmov]
          exact hstay
        · have hr0 : salaEm mapa0 (e.atual ++ [.direita]) ≠ .nil := hR.1 hr
          have hcmd : comando (coletar e) (some b)
              = { estado := { coletar e with atual := (coletar e).atual ++ [.direita] },
                  saiu := false, opcaoInvalida := false } := by
            simp [comando, h10, hD, hr]
          have hmov : movimentos mapa0 e.atual (some b :: resto)
              = movimentos mapa0 (e.atual ++ [.direita]) resto := by
            simp [movimentos, h10, hD, hr0]
          rw [hcmd, hmov]
          exact hmove .direita hr0
      by_cases hS : tolower (deref b) = 115
      · have hcmd : comando (coletar e) (some b)
            = { estado := coletar e, saiu := true, opcaoInvalida := false } := by
          simp [comando, h10, hS]
        have hmov : movimentos mapa0 e.atual (some b :: resto) = e.atual := by
          simp [movimentos, h10, hS]
        rw [hcmd, hmov]
        exact ⟨he, hat⟩
      · have hcmd : comando (coletar e) (some b)
            = { estado := coletar e, saiu := false, opcaoInvalida := true } := by
          simp [comando, h10, hE, hD, hS]
        have hmov : movimentos mapa0 e.atual (some b :: resto)
            = movimentos mapa0 e.atual resto := by
          simp [movimentos, h10, hE, hD, hS]
        rw [hcmd, hmov]
        exact hstay

theorem construido_mapaExemplo : Construido mapaExemplo :=
  Construido.sala (texto "Hall") (some (texto "shoeprint")) _ _
    (Construido.sala (texto "Library") (some (texto "torn page")) .nil .nil
      Construido.nil Construido.nil)
    (Construido.sala (texto "Kitchen") (some (texto "")) .nil .nil
      Construido.nil Construido.nil)

/-- C20, as amended: for every map built with `criarSala` (a tree, with a root) and every
finite sequence of reads, starting in the root with an empty clue tree, after the
collection phase of every step (that is, whenever the engine waits for a command, and when
it has exited) the current room is the room of the map that the valid left and right
commands so far lead to; the in-order sequence of the clue tree is strictly ascending and
holds exactly the non-empty clues that the rooms on the way from the root to the current
room had at the start; those rooms have an empty clue; every other room has its first clue
and no room or link was changed otherwise; and what `explorarSalas` returns is that state. -/
theorem c20_collects_rooms_walked (mapa0 : Sala) (entradas : List (Option CString))
    (hc : Construido mapa0) (hn : mapa0 ≠ .nil) :
    (noPrompt ⟨mapa0, [], .nil⟩ entradas).atual = movimentos mapa0 [] entradas ∧
    salaEm mapa0 (noPrompt ⟨mapa0, [], .nil⟩ entradas).atual ≠ .nil ∧
    List.Pairwise lexLt (exibirPistas (noPrompt ⟨mapa0, [], .nil⟩ entradas).raizPistas) ∧
    (∀ x, x ∈ exibirPistas (noPrompt ⟨mapa0, [], .nil⟩ entradas).raizPistas ↔
      x ≠ [] ∧ ∃ q, q <+: (noPrompt ⟨mapa0, [], .nil⟩ entradas).atual ∧
        pistaDe (salaEm mapa0 q) = x) ∧
    (∀ q, q <+: (noPrompt ⟨mapa0, [], .nil⟩ entradas).atual →
      pistaDe (salaEm (noPrompt ⟨mapa0, [], .nil⟩ entradas).mapa q) = []) ∧
    (∀ q, ¬ q <+: (noPrompt ⟨mapa0, [], .nil⟩ entradas).atual →
      pistaDe (salaEm (noPrompt ⟨mapa0, [], .nil⟩ entradas).mapa q)
        = pistaDe (salaEm mapa0 q)) ∧
    (noPrompt ⟨mapa0, [], .nil⟩ entradas).mapa
      = limparCaminho mapa0 (noPrompt ⟨mapa0, [], .nil⟩ entradas).atual ∧
    (∀ r, explorarSalas mapa0 .nil entradas = some r →
      r = ((noPrompt ⟨mapa0, [], .nil⟩ entradas).mapa,
           (noPrompt ⟨mapa0, [], .nil⟩ entradas).raizPistas)) := by
  have hcabe := pistasCabem_of_construido mapa0 hc
  obtain ⟨⟨hsala, hmapa, hbst, hmem⟩, hat⟩ :=
    coletadoAte_noPrompt mapa0 hcabe entradas ⟨mapa0, [], .nil⟩
      (coletadoAte_inicio mapa0 hcabe hn)
  refine ⟨hat, hsala, pairwise_exibirPistas_of_ehBST _ hbst, hmem, ?_, ?_, hmapa, ?_⟩
  · intro q hq
    rw [hmapa, pistaDe_salaEm_limparCaminho, if_pos hq]
  · intro q hq
    rw [hmapa, pistaDe_salaEm_limparCaminho, if_neg hq]
  · intro r hr
    cases mapa0 with
    | nil => exact absurd rfl hn
    | node nome pista e d =>
      simp only [explorarSalas] at hr
      by_cases hs : (aposEntradas ⟨.node nome pista e d, [], .nil⟩ entradas).2 = true
      · simp only [hs, if_true, Option.some.injEq] at hr
        simp only [noPrompt, hs, if_true]
        exact hr.symm
      · simp [hs] at hr

/-- C20 on the example map after the reads `e` and `x`: the engine waits in the library with
both clues collected. -/
theorem c20_collects_rooms_walked_witness :
    Construido mapaExemplo ∧ mapaExemplo ≠ .nil ∧
    (noPrompt ⟨mapaExemplo, [], .nil⟩ [some (texto "e\n"), some (texto "x\n")]).atual
      = movimentos mapaExemplo [] [some (texto "e\n"), some (texto "x\n")] ∧
    (noPrompt ⟨mapaExemplo, [], .nil⟩ [some (texto "e\n"), some (texto "x\n")]).atual
      = [.esquerda] ∧
    exibirPistas (noPrompt ⟨mapaExemplo, [], .nil⟩
        [some (texto "e\n"), some (texto "x\n")]).raizPistas
      = [texto "shoeprint", texto "torn page"] :=
  ⟨construido_mapaExemplo, by decide,
    (c20_collects_rooms_walked mapaExemplo [some (texto "e\n"), some (texto "x\n")]
      construido_mapaExemplo (by decide)).1,
    by decide, by decide⟩

/-- C20 fails as stated: on the example map, after the first step (the hall is collected,
then the command `e` moves to the library) the current room is the library, which is on the
way from the root to itself and still has its clue `torn page`, and the clue tree holds
`shoeprint` only. -/
theorem c20_after_move_counterexample :
    (aposEntradas ⟨mapaExemplo, [], .nil⟩ [some (texto "e\n")]).2 = false ∧
    (aposEntradas ⟨mapaExemplo, [], .nil⟩ [some (texto "e\n")]).1.atual = [.esquerda] ∧
    pistaDe (salaEm mapaExemplo [.esquerda]) = texto "torn page" ∧
    pistaDe (salaEm (aposEntradas ⟨mapaExemplo, [], .nil⟩ [some (texto "e\n")]).1.mapa
      [.esquerda]) = texto "torn page" ∧
    exibirPistas (aposEntradas ⟨mapaExemplo, [], .nil⟩ [some (texto "e\n")]).1.raizPistas
      = [texto "shoeprint"] := by
  refine ⟨by decide, by decide, by decide, by decide, by decide⟩

end DetectiveQuest
